import Mathlib

/-!
Verification of `random-access-layered-storage`
(`src/lib/random-access-layered-storage.js`).

The development is a shallow embedding of the layered store.  Buffers are
`List Nat` (one entry per byte), the page map is an association list
`List (Nat × Page)` mirroring the JavaScript `Map` (insertion order,
unique keys), the LRU cache is a list of page indices in most-recently-used
first order mirroring `lru-cache` with `max := maxPages` and a dispose hook,
and the pin set is a list of page indices.

The callback-driven per-page loops of the source are sequentialised
(the spec, section 5, declares per-operation atomicity for a single
operation, and the `setImmediate` yields are a fairness nudge only); every
loop is written with an explicit fuel argument equal to the number of bytes
remaining, which suffices because each iteration consumes at least one byte
whenever `pageSize > 0` (the constructor guarantees `pageSize ≥ 1`).

The underlying storage (backend) is modelled as a byte list with the
contract of spec section 4.A: reads zero-pad past end of file, writes
extend the length (`length = max(length, offset + data.length)`, as in
`random-access-memory`), truncate sets the length exactly.  `lru-cache@11`
invokes its dispose hook as `dispose(value, key, reason)`, so `_onEvict`
receives the stored value `true` in its `pageIndex` parameter and returns
at `if (!page) return` — dispose-triggered evictions never touch the page
map (see `onEvictStore`).  The `_modifiedPages` set of the source is write-only (it is never read),
and `_accessTimes` is only ever written and deleted, so neither is carried
in the state.  `console.log` calls are ignored.
-/

set_option maxHeartbeats 1000000

namespace RALS

/-- A byte buffer of the underlying storage.  `data` holds the file
contents; reads past the end yield zeros (spec section 4.A: a short read is
permitted only at end-of-file and is filled with zeros by the caller). -/
structure Backend where
  data : List Nat
deriving DecidableEq, Repr

/-- An overlay page: `data` is the page buffer (length at most `pageSize`),
`modified` is the dirty flag (`page.modified` in the source). -/
structure Page where
  data : List Nat
  modified : Bool
deriving DecidableEq, Repr

/-- The state of one `RandomAccessLayeredStorage` instance (its fields
named after the source).  `pages` is `this._pages`, `lru` is the key list
of `this._lru` in most-recently-used-first order, `pinnedPages` is
`this._pinnedPages`, `bitmask` is `this._bitmask`, `size` is `this._size`,
`fileExists` is `this._fileExists` and `underlying` is the backend. -/
structure Store where
  pageSize : Nat
  maxPages : Nat
  strictSizeLimit : Option Nat
  autoFlushOnEvict : Bool
  pages : List (Nat × Page)
  lru : List Nat
  pinnedPages : List Nat
  bitmask : Option (List Nat)
  size : Nat
  fileExists : Bool
  underlying : Backend
deriving DecidableEq, Repr

/-- Lookup in the page map (`this._pages.get`). -/
def alookup : List (Nat × Page) → Nat → Option Page
  | [], _ => none
  | (k, v) :: rest, i => if k = i then some v else alookup rest i

/-- Insert or replace in the page map (`this._pages.set`): a present key is
updated in place, a new key is appended, as a JavaScript `Map` does. -/
def aset : List (Nat × Page) → Nat → Page → List (Nat × Page)
  | [], i, pg => [(i, pg)]
  | (k, v) :: rest, i, pg => if k = i then (i, pg) :: rest else (k, v) :: aset rest i pg

/-- Remove from the page map (`this._pages.delete`). -/
def aremove : List (Nat × Page) → Nat → List (Nat × Page)
  | [], _ => []
  | (k, v) :: rest, i => if k = i then rest else (k, v) :: aremove rest i

/-- The key list of the page map. -/
def keysOf (s : Store) : List Nat := s.pages.map Prod.fst

/-- Overlay `src` onto `dst` starting at position `pos`, keeping the length
of `dst` (the semantics of `buffer.set(src, pos)` / `src.copy(dst, pos)`
when `src` fits, which holds at every use site). -/
def overlayAt (dst : List Nat) (pos : Nat) (src : List Nat) : List Nat :=
  dst.take pos ++ (src ++ dst.drop (pos + src.length)).take (dst.length - pos)

/-- Zero the byte range `[a, b)` of a buffer, clipped to its length
(`buffer.fill(0, a, b)`). -/
def zeroFill (l : List Nat) (a b : Nat) : List Nat :=
  l.mapIdx fun i x => if a ≤ i ∧ i < b then 0 else x

/-- Backend read of `len` bytes at `off`, zero-padded past end of file. -/
def backendRead (b : Backend) (off len : Nat) : List Nat :=
  (List.range len).map fun j => b.data.getD (off + j) 0

/-- Backend write: pads with zeros up to `off` if needed and extends the
length to `max(length, off + buf.length)`, as `random-access-memory` does. -/
def backendWrite (b : Backend) (off : Nat) (buf : List Nat) : Backend :=
  ⟨overlayAt (b.data ++ List.replicate (off + buf.length - b.data.length) 0) off buf⟩

/-- Backend truncate: sets the length to exactly `L` (zero-padding when
growing). -/
def backendTruncate (b : Backend) (L : Nat) : Backend :=
  ⟨(b.data ++ List.replicate (L - b.data.length) 0).take L⟩

/-- The byte of a backend at position `i` (zero past end of file). -/
def bget (b : Backend) (i : Nat) : Nat := b.data.getD i 0

/-- The value a single `(offset, buffer)` write assigns to position `i`,
when it covers it. -/
def coverOf (w : Nat × List Nat) (i : Nat) : Option Nat :=
  if w.1 ≤ i ∧ i < w.1 + w.2.length then some (w.2.getD (i - w.1) 0) else none

/-- The value the last write of a list covering position `i` assigns to it
(later writes in the list take priority). -/
def lastCover : List (Nat × List Nat) → Nat → Option Nat
  | [], _ => none
  | w :: ws, i =>
    match lastCover ws i with
    | some v => some v
    | none => coverOf w i

/-- The largest end offset of a list of writes. -/
def wmax : List (Nat × List Nat) → Nat
  | [] => 0
  | w :: ws => max (w.1 + w.2.length) (wmax ws)

/-- Apply a list of `(offset, buffer)` writes to a backend, in order. -/
def applyWrites (b : Backend) : List (Nat × List Nat) → Backend
  | [] => b
  | w :: ws => applyWrites (backendWrite b w.1 w.2) ws

/-- The list of page indices `[a, b]` (empty when `b < a`), the loop
`for (let pageIndex = a; pageIndex <= b; pageIndex++)`. -/
def pageRangeList (a b : Nat) : List Nat :=
  (List.range (b + 1 - a)).map (a + ·)

/-- The per-page chunks `(offset, length)` that the read/write/delete loops
traverse for a byte range starting at `off` with `rem` bytes remaining:
each chunk has `length = min(pageSize - offset % pageSize, rem)`.  The
first argument after `ps` is fuel; it is called with fuel `rem`, which is
enough since each chunk consumes at least one byte when `ps > 0`. -/
def pageChunks (ps : Nat) : Nat → Nat → Nat → List (Nat × Nat)
  | 0, _, _ => []
  | fuel + 1, off, rem =>
    if rem = 0 then []
    else
      let len := min (ps - off % ps) rem
      if len = 0 then []
      else (off, len) :: pageChunks ps fuel (off + len) (rem - len)

/-- Translation of `_isBitSet(offset, length)`'s loop body, recursing over
the remaining length: bit `offset` is bit `offset % 8` (LSB-first) of mask
byte `offset / 8`; an offset whose byte lies beyond the mask counts as
unset. -/
def isBitSet (bm : List Nat) : Nat → Nat → Bool
  | _, 0 => true
  | offset, k + 1 =>
    let byteIndex := offset / 8
    if bm.length ≤ byteIndex then false
    else if (bm.getD byteIndex 0) >>> (offset % 8) % 2 = 0 then false
    else isBitSet bm (offset + 1) k

/-- The bitmask guard of `_write`:
`this._bitmask && !this._isBitSet(offset, bytesToWrite)` means the chunk is
skipped; a chunk passes when there is no bitmask or all its bits are set. -/
def chunkPasses (bmask : Option (List Nat)) (off len : Nat) : Bool :=
  match bmask with
  | none => true
  | some bm => isBitSet bm off len

/-- Byte offset `i` is written by `write(off, ·)` over `rem` bytes: some
per-page chunk covers `i` and passes the bitmask gate. -/
def writtenAt (bmask : Option (List Nat)) (ps off rem i : Nat) : Prop :=
  ∃ c ∈ pageChunks ps rem off rem,
    c.1 ≤ i ∧ i < c.1 + c.2 ∧ chunkPasses bmask c.1 c.2 = true

/-- The value a read of byte `i` observes in state `s`: the byte of the
resident page if the page is resident (zero past the page buffer's end),
otherwise the byte the page load would produce (the backend byte when
`i < size`, zero otherwise). -/
def view (s : Store) (i : Nat) : Nat :=
  match alookup s.pages (i / s.pageSize) with
  | some pg => pg.data.getD (i % s.pageSize) 0
  | none => if s.fileExists ∧ i < s.size then s.underlying.data.getD i 0 else 0

/-- The backend write one page of `_performFlush`'s loop performs, as an
`(absolute offset, buffer)` pair: the in-page subrange is
`[startOffsetInPage, endOffsetInPage)`, the buffer is
`page.data.subarray(startOffsetInPage, endOffsetInPage)` for a resident
page (`subarray` yields fewer bytes when the page buffer is shorter) and a
zero buffer of `writeSize` bytes otherwise.  `offset` and `e` are the
absolute start and end (`end = offset + size`) of the flush. -/
def flushWriteOf (pages : List (Nat × Page)) (offset e ps pi : Nat) : Nat × List Nat :=
  let startIn := if pi = offset / ps then offset % ps else 0
  let endIn := if pi = (e - 1) / ps then (e - 1) % ps + 1 else ps
  (pi * ps + startIn,
    match alookup pages pi with
    | some pg => (pg.data.drop startIn).take (endIn - startIn)
    | none => List.replicate (endIn - startIn) 0)

/-- The dirty-flag clearing of `_performFlush`'s loop:
`if (page && page.modified) { page.modified = false; ... }`. -/
def clearMod (pages : List (Nat × Page)) (pi : Nat) : List (Nat × Page) :=
  match alookup pages pi with
  | some pg => if pg.modified then aset pages pi ⟨pg.data, false⟩ else pages
  | none => pages

/-- One page of `_performFlush`'s loop: perform the page's backend write
and clear its dirty flag. -/
def flushPageStep (offset e ps pi : Nat) (s : Store) : Store :=
  { s with underlying := backendWrite s.underlying (flushWriteOf s.pages offset e ps pi).1
             (flushWriteOf s.pages offset e ps pi).2,
           pages := clearMod s.pages pi }

/-- The per-page loop of `_performFlush` over a list of page indices. -/
def flushPagesLoop (offset e ps : Nat) : List Nat → Store → Store
  | [], s => s
  | pi :: rest, s => flushPagesLoop offset e ps rest (flushPageStep offset e ps pi s)

/-- The page-index list `[startPage, endPage]` that `_performFlush(offset,
size)` walks.  When `end = offset + size = 0` the JavaScript
`endPage = Math.floor((end - 1) / pageSize)` is `-1` and the list is
empty. -/
def performFlushPages (s : Store) (offset size : Nat) : List Nat :=
  if offset + size = 0 then []
  else pageRangeList (offset / s.pageSize) ((offset + size - 1) / s.pageSize)

/-- `_performFlush(offset, size)`: flush the pages of
`[offset, offset + size)`, then truncate the backend to `this._size` when
`this._size < end` (the modelled backend supports truncate). -/
def performFlush (s : Store) (offset size : Nat) : Store :=
  let e := offset + size
  let s1 := flushPagesLoop offset e s.pageSize (performFlushPages s offset size) s
  if s1.size < e then { s1 with underlying := backendTruncate s1.underlying s1.size } else s1

/-- `flush(offset, size)`: clip `size` to the current overlay size and
perform the flush (the store and backend are presumed open). -/
def flushOp (s : Store) (offset size : Nat) : Store :=
  performFlush s offset (min size s.size)

/-- `_evictPage(pageIndex)`: unless pinned, remove the page from the page
map and the LRU. -/
def evictPage (s : Store) (pi : Nat) : Store :=
  if pi ∈ s.pinnedPages then s
  else { s with pages := aremove s.pages pi, lru := s.lru.erase pi }

/-- `_onEvict` as `lru-cache@11` actually invokes it.  The cache is
constructed with `dispose: this._onEvict.bind(this)` and every entry is
`this._lru.set(pageIndex, true)`; since v7 `lru-cache` calls the hook as
`dispose(value, key, reason)`, so `_onEvict`'s `pageIndex` parameter
receives the stored value `true`.  `this._pages.get(true)` on the
number-keyed map is undefined and the hook returns at `if (!page) return`:
every dispose-triggered call (capacity eviction and `delete`) leaves the
store unchanged, and the flush/evict body of `_onEvict` (source lines
783-803) is dead code under this wiring. -/
def onEvictStore (s : Store) (_pi : Nat) : Store := s

/-- Capacity enforcement of `lru-cache`: while the LRU holds more than
`maxPages` keys, drop the least-recently-used key and fire the dispose
hook — which, per `onEvictStore`, leaves the store unchanged, so only the
key list shrinks and the page itself stays resident.  Fuel-bounded; called
with fuel larger than the LRU length, which suffices because each round
shortens the LRU. -/
def lruEnforce : Nat → Store → Store
  | 0, s => s
  | fuel + 1, s =>
    if s.lru.length ≤ s.maxPages then s
    else
      let v := s.lru.getLastD 0
      lruEnforce fuel (onEvictStore { s with lru := s.lru.dropLast } v)

/-- `this._lru.set(pageIndex, true)`: promote the key to most recently
used (inserting it if absent) and enforce the capacity bound. -/
def lruSetStore (s : Store) (pi : Nat) : Store :=
  lruEnforce (s.lru.length + 1) { s with lru := pi :: s.lru.erase pi }

/-- `_touchPage(pageIndex)`: `this._lru.get(pageIndex)` promotes a present
key to most recently used and does nothing for an absent key
(`_accessTimes` is not carried: it is never read). -/
def touchStore (s : Store) (pi : Nat) : Store :=
  if pi ∈ s.lru then { s with lru := pi :: s.lru.erase pi } else s

/-- `_loadPage(pageIndex)`: allocate a zero page of `pageSize` bytes; when
the file exists and `bytesToRead = min(pageSize, size - pageIndex*pageSize)`
is positive, fill its head from the backend; insert the page into the page
map and the LRU; return the new store and the loaded page. -/
def loadPage (s : Store) (pi : Nat) : Store × Page :=
  let ps := s.pageSize
  let bytesToRead := min ps (s.size - pi * ps)
  let pg : Page :=
    if s.fileExists ∧ 0 < bytesToRead then
      ⟨backendRead s.underlying (pi * ps) bytesToRead ++ List.replicate (ps - bytesToRead) 0, false⟩
    else ⟨List.replicate ps 0, false⟩
  (lruSetStore { s with pages := aset s.pages pi pg } pi, pg)

/-- `_getPage(pageIndex)`: the resident page, or load it. -/
def getPage (s : Store) (pi : Nat) : Store × Page :=
  match alookup s.pages pi with
  | some pg => (s, pg)
  | none => loadPage s pi

/-- `_loadOrCreatePage` simply delegates to `_loadPage`. -/
def loadOrCreatePage (s : Store) (pi : Nat) : Store × Page :=
  loadPage s pi

/-- `_getOrCreatePage(pageIndex)`: the resident page, or load-or-create. -/
def getOrCreatePage (s : Store) (pi : Nat) : Store × Page :=
  match alookup s.pages pi with
  | some pg => (s, pg)
  | none => loadOrCreatePage s pi

/-- The strict-size guard of `_read`/`_write`:
`this._strictSizeLimit !== undefined && offset + n > this._strictSizeLimit`
fails the operation. -/
def strictViolated (s : Store) (off n : Nat) : Bool :=
  match s.strictSizeLimit with
  | none => false
  | some L => decide (L < off + n)

/-- One chunk of `_read`'s `readNext` loop: fetch the page (loading on a
miss), copy `page.data.subarray(pageOffset, pageOffset + bytesToRead)` into
the result buffer at `bytesRead = off - reqOffset`, and touch the page. -/
def readChunkStep (reqOffset : Nat) (s : Store) (buf : List Nat) (off len : Nat) :
    Store × List Nat :=
  let pi := off / s.pageSize
  let po := off % s.pageSize
  let sp := getPage s pi
  (touchStore sp.1 pi, overlayAt buf (off - reqOffset) ((sp.2.data.drop po).take len))

/-- The `readNext` loop of `_read`, fuel-bounded with fuel `rem`. -/
def readLoop (reqOffset : Nat) : Nat → Nat → Nat → Store → List Nat → Store × List Nat
  | 0, _, _, s, buf => (s, buf)
  | fuel + 1, off, rem, s, buf =>
    if rem = 0 then (s, buf)
    else
      let len := min (s.pageSize - off % s.pageSize) rem
      let r := readChunkStep reqOffset s buf off len
      readLoop reqOffset fuel (off + len) (rem - len) r.1 r.2

/-- `_read(req)`: on an open store, fail when the file does not exist, fail
the strict-size guard, otherwise fill a zero buffer of `req.size` bytes
page by page.  (The source's dead branch for a backend error whose message
contains `Read exceeds storage size` never fires: the modelled backend
read is total.) -/
def readOp (s : Store) (off n : Nat) : Store × Except String (List Nat) :=
  if s.fileExists = false then (s, .error "File does not exist")
  else if strictViolated s off n then (s, .error "Read exceeds strict size enforcement")
  else
    let r := readLoop off n off n s (List.replicate n 0)
    (r.1, .ok r.2)

/-- The page buffer produced by one non-skipped iteration of `_write`'s
`writeNext` loop: grow the buffer with zeros to `pageOffset + bytesToWrite`
if it is shorter, then overlay
`req.data.subarray(bytesWritten, bytesWritten + bytesToWrite)` at the page
offset (`bytesWritten = off - reqOffset`). -/
def writeChunkData (pgdata : List Nat) (ps reqOffset : Nat) (d : List Nat) (off len : Nat) :
    List Nat :=
  let po := off % ps
  let data1 :=
    if pgdata.length < po + len then pgdata ++ List.replicate (po + len - pgdata.length) 0
    else pgdata
  overlayAt data1 po ((d.drop (off - reqOffset)).take len)

/-- One non-skipped iteration of `_write`'s `writeNext` loop: get or create
the page, rewrite its buffer as `writeChunkData` does, mark the page
modified, and touch it when it is not pinned. -/
def writeChunk (s : Store) (reqOffset : Nat) (d : List Nat) (off len : Nat) : Store :=
  let pi := off / s.pageSize
  let sp := getOrCreatePage s pi
  let s2 : Store := { sp.1 with
    pages := aset sp.1.pages pi ⟨writeChunkData sp.2.data s.pageSize reqOffset d off len, true⟩ }
  if s2.pinnedPages.contains pi then s2 else touchStore s2 pi

/-- The `writeNext` loop of `_write`: per chunk, skip it when a bitmask is
installed and some bit of the chunk is unset, otherwise run `writeChunk`.
Fuel-bounded with fuel `rem`. -/
def writeLoop (reqOffset : Nat) (d : List Nat) : Nat → Nat → Nat → Store → Store
  | 0, _, _, s => s
  | fuel + 1, off, rem, s =>
    if rem = 0 then s
    else
      let ps := s.pageSize
      let po := off % ps
      let len := min (ps - po) rem
      let s1 :=
        if s.bitmask.isSome ∧ chunkPasses s.bitmask off len = false then s
        else writeChunk s reqOffset d off len
      writeLoop reqOffset d fuel (off + len) (rem - len) s1

/-- `_write(req)`: on an open store, fail the strict-size guard, otherwise
run the per-page loop and finally set
`this._size = max(this._size, req.offset + req.data.length)`. -/
def writeOp (s : Store) (off : Nat) (d : List Nat) : Store × Option String :=
  if strictViolated s off d.length then (s, some "Write exceeds strict size enforcement")
  else
    let s1 := writeLoop off d d.length off d.length s
    ({ s1 with size := max s1.size (off + d.length) }, none)

/-- One chunk of `_del`'s `deleteNext` loop: fetch the page (loading on a
miss — `_getPage` always yields a page in the model), zero-fill the
in-page subrange and mark the page modified.  The loop does not touch the
LRU. -/
def delChunk (s : Store) (off len : Nat) : Store :=
  let pi := off / s.pageSize
  let po := off % s.pageSize
  let sp := getPage s pi
  { sp.1 with pages := aset sp.1.pages pi ⟨zeroFill sp.2.data po (po + len), true⟩ }

/-- The `deleteNext` loop of `_del`, fuel-bounded with fuel `rem`. -/
def delLoop : Nat → Nat → Nat → Store → Store
  | 0, _, _, s => s
  | fuel + 1, off, rem, s =>
    if rem = 0 then s
    else
      let len := min (s.pageSize - off % s.pageSize) rem
      delLoop fuel (off + len) (rem - len) (delChunk s off len)

/-- `_del(req)`: `end` is the file size for an infinite (`none`) size or
when `offset + size` exceeds it, else `offset + size`; zero the range
`[offset, end)` page by page; finally, when `end` equals the (unchanged)
file size, truncate the overlay size to `offset`. -/
def delOp (s : Store) (off : Nat) (sz : Option Nat) : Store :=
  let e :=
    match sz with
    | none => s.size
    | some n => if s.size < off + n then s.size else off + n
  let s1 := delLoop (e - off) off (e - off) s
  if e = s1.size then { s1 with size := off } else s1

/-- The removal loop of `_truncate` shrink: delete each listed index from
the page map, the LRU and the pin set.  (`lru-cache` fires the dispose
hook on `delete`, but the page was removed from the page map first, so the
hook finds no page and does nothing.) -/
def removePagesList (s : Store) (l : List Nat) : Store :=
  l.foldl (fun t i =>
    { t with pages := aremove t.pages i, lru := t.lru.erase i,
             pinnedPages := t.pinnedPages.erase i }) s

/-- `_truncate(req)`: growing extends the file through the public `write`
with `newSize - size` zero bytes and then sets `size = newSize` (a strict
failure of that write aborts before the size is set).  Shrinking sets
`size = newSize`, removes every resident page with index beyond
`floor(newSize / pageSize)`, then handles the boundary page when resident
(removed when `newSize` is a page multiple, otherwise its buffer is cut to
`newSize % pageSize` and marked modified), and finally truncates the
backend. -/
def truncateOp (s : Store) (newSize : Nat) : Store :=
  if s.size < newSize then
    let w := writeOp s s.size (List.replicate (newSize - s.size) 0)
    match w.2 with
    | some _ => w.1
    | none => { w.1 with size := newSize }
  else
    let s0 := { s with size := newSize }
    let b := newSize / s.pageSize
    let s1 := removePagesList s0 ((keysOf s0).filter (fun i => b < i))
    let s2 :=
      match alookup s1.pages b with
      | none => s1
      | some lastPg =>
        if newSize % s.pageSize = 0 then
          { s1 with pages := aremove s1.pages b, lru := s1.lru.erase b,
                    pinnedPages := s1.pinnedPages.erase b }
        else
          { s1 with pages := aset s1.pages b ⟨lastPg.data.take (newSize % s.pageSize), true⟩ }
    { s2 with underlying := backendTruncate s2.underlying newSize }

/-- `pin(offset, size)`: add every page index of the byte range to the pin
set (`Set.add` appends a new element).  For `offset + size = 0` the
JavaScript end page `floor((offset + size - 1) / pageSize)` is `-1` and
the loop is empty. -/
def pinOp (s : Store) (off n : Nat) : Store :=
  if off + n = 0 then s
  else
    let idxs := pageRangeList (off / s.pageSize) ((off + n - 1) / s.pageSize)
    { s with pinnedPages := idxs.foldl (fun l i => if i ∈ l then l else l ++ [i]) s.pinnedPages }

/-- `unpin(offset, size)`: remove every page index of the byte range from
the pin set. -/
def unpinOp (s : Store) (off n : Nat) : Store :=
  if off + n = 0 then s
  else
    let idxs := pageRangeList (off / s.pageSize) ((off + n - 1) / s.pageSize)
    { s with pinnedPages := idxs.foldl (fun l i => l.erase i) s.pinnedPages }

/-- `evict(percent, flushBeforeEvict)`: the candidate list is the LRU keys
without the pinned ones, reversed to least-recently-used first; the loop
evicts `pagesToEvict` of them (or all candidates), flushing each page's
range first when requested.  `pagesToEvict = ceil(lru.size * percent)` is
taken as the natural-number parameter `n`. -/
def evictOp (s : Store) (n : Nat) (flushBeforeEvict : Bool) : Store :=
  (((s.lru.filter (fun i => i ∉ s.pinnedPages)).reverse).take n).foldl
    (fun t pi =>
      let t1 := if flushBeforeEvict then flushOp t (pi * t.pageSize) t.pageSize else t
      evictPage t1 pi) s

/-- `setBitmask(buf)`. -/
def setBitmaskOp (s : Store) (bm : List Nat) : Store :=
  { s with bitmask := some bm }

/-- `clearBitmask()`. -/
def clearBitmaskOp (s : Store) : Store :=
  { s with bitmask := none }

/-- A freshly constructed and opened store over a backend: the constructor
options (with `pageSize` and `maxPages` already defaulted and therefore
positive), empty overlay structures, and `_open`'s effect
`fileExists = true`, `size = max(0, stat.size) = backend length`. -/
def openStore (b : Backend) (ps maxPages : Nat) (strict : Option Nat)
    (autoFlush : Bool) : Store :=
  { pageSize := ps, maxPages := maxPages, strictSizeLimit := strict,
    autoFlushOnEvict := autoFlush, pages := [], lru := [], pinnedPages := [],
    bitmask := none, size := b.data.length, fileExists := true, underlying := b }

/-- The constructor's nested-layer clause (source lines 26–28): when the
underlying storage is itself a `RandomAccessLayeredStorage`, the outer
constructor assigns its own `strictSizeEnforcement` option to the inner
store's `_strictSizeLimit`.  This returns the inner store as mutated by
constructing an outer layer over it. -/
def ctorAdjustInner (outerStrictOpt : Option Nat) (inner : Store) : Store :=
  { inner with strictSizeLimit := outerStrictOpt }

/-- One caller-visible operation, for quantifying over operation
sequences. -/
inductive Op where
  | readO (off n : Nat)
  | writeO (off : Nat) (d : List Nat)
  | delO (off : Nat) (sz : Option Nat)
  | truncateO (newSize : Nat)
  | flushO (off n : Nat)
  | evictO (n : Nat) (flushFirst : Bool)
  | pinO (off n : Nat)
  | unpinO (off n : Nat)
  | setBitmaskO (bm : List Nat)
  | clearBitmaskO
deriving DecidableEq, Repr

/-- Apply one operation to a store, discarding results and errors. -/
def applyOp (s : Store) : Op → Store
  | .readO off n => (readOp s off n).1
  | .writeO off d => (writeOp s off d).1
  | .delO off sz => delOp s off sz
  | .truncateO newSize => truncateOp s newSize
  | .flushO off n => flushOp s off n
  | .evictO n ff => evictOp s n ff
  | .pinO off n => pinOp s off n
  | .unpinO off n => unpinOp s off n
  | .setBitmaskO bm => setBitmaskOp s bm
  | .clearBitmaskO => clearBitmaskOp s

/-- Whether an operation is a pin. -/
def Op.isPinOp : Op → Bool
  | .pinO _ _ => true
  | _ => false

/-- The message of a limit error contains the substring
`exceeds strict size enforcement`. -/
def containsLimitMsg (m : String) : Prop :=
  ∃ pre post, m = pre ++ "exceeds strict size enforcement" ++ post

/-! ### Stability of the configuration fields

The fields `pageSize`, `maxPages`, `strictSizeLimit`, `autoFlushOnEvict`,
`bitmask`, `size`, `fileExists` and `pinnedPages` are untouched by every
internal primitive (page loads, LRU maintenance, eviction, flushing, and
the read/write/delete page loops); only the top-level operations change
`size`, `bitmask` or `pinnedPages`. -/

/-- Two stores agree on all configuration fields, the size, and the pin
set. -/
def sameCore (s t : Store) : Prop :=
  s.pageSize = t.pageSize ∧ s.maxPages = t.maxPages ∧
  s.strictSizeLimit = t.strictSizeLimit ∧ s.autoFlushOnEvict = t.autoFlushOnEvict ∧
  s.bitmask = t.bitmask ∧ s.size = t.size ∧ s.fileExists = t.fileExists ∧
  s.pinnedPages = t.pinnedPages

theorem sameCore_refl (s : Store) : sameCore s s := by
  simp [sameCore]

theorem sameCore_trans {s t u : Store} (h1 : sameCore s t) (h2 : sameCore t u) :
    sameCore s u := by
  obtain ⟨a1, a2, a3, a4, a5, a6, a7, a8⟩ := h1
  obtain ⟨b1, b2, b3, b4, b5, b6, b7, b8⟩ := h2
  exact ⟨a1.trans b1, a2.trans b2, a3.trans b3, a4.trans b4, a5.trans b5,
    a6.trans b6, a7.trans b7, a8.trans b8⟩

theorem sameCore_flushPageStep (offset e ps pi : Nat) (s : Store) :
    sameCore s (flushPageStep offset e ps pi s) := by
  unfold flushPageStep
  simp [sameCore]

theorem sameCore_flushPagesLoop (offset e ps : Nat) (l : List Nat) (s : Store) :
    sameCore s (flushPagesLoop offset e ps l s) := by
  induction l generalizing s with
  | nil => exact sameCore_refl s
  | cons pi rest ih =>
    exact sameCore_trans (sameCore_flushPageStep offset e ps pi s) (ih _)

theorem sameCore_truncIf (s : Store) (e : Nat) :
    sameCore s
      (if s.size < e then { s with underlying := backendTruncate s.underlying s.size } else s) := by
  split <;> simp [sameCore]

theorem sameCore_performFlush (s : Store) (offset size : Nat) :
    sameCore s (performFlush s offset size) := by
  unfold performFlush
  exact sameCore_trans (sameCore_flushPagesLoop _ _ _ _ s) (sameCore_truncIf _ _)

theorem sameCore_flushOp (s : Store) (offset size : Nat) :
    sameCore s (flushOp s offset size) :=
  sameCore_performFlush s offset (min size s.size)

theorem sameCore_evictPage (s : Store) (pi : Nat) :
    sameCore s (evictPage s pi) := by
  unfold evictPage
  split <;> simp [sameCore]

theorem sameCore_touchStore (s : Store) (pi : Nat) :
    sameCore s (touchStore s pi) := by
  unfold touchStore
  split <;> simp [sameCore]

theorem sameCore_onEvictStore (s : Store) (pi : Nat) :
    sameCore s (onEvictStore s pi) :=
  sameCore_refl s

theorem sameCore_lruEnforce (fuel : Nat) (s : Store) :
    sameCore s (lruEnforce fuel s) := by
  induction fuel generalizing s with
  | zero => exact sameCore_refl s
  | succ fuel ih =>
    unfold lruEnforce
    split
    · exact sameCore_refl s
    · refine sameCore_trans (sameCore_trans ?_
        (sameCore_onEvictStore { s with lru := s.lru.dropLast } (s.lru.getLastD 0))) (ih _)
      simp [sameCore]

theorem sameCore_lruSetStore (s : Store) (pi : Nat) :
    sameCore s (lruSetStore s pi) := by
  unfold lruSetStore
  refine sameCore_trans ?_ (sameCore_lruEnforce _ { s with lru := pi :: s.lru.erase pi })
  simp [sameCore]

theorem sameCore_loadPage (s : Store) (pi : Nat) :
    sameCore s (loadPage s pi).1 := by
  unfold loadPage
  refine sameCore_trans ?_ (sameCore_lruSetStore { s with pages := aset s.pages pi _ } pi)
  simp [sameCore]

theorem sameCore_getPage (s : Store) (pi : Nat) :
    sameCore s (getPage s pi).1 := by
  unfold getPage
  cases h : alookup s.pages pi with
  | none => simpa [h] using sameCore_loadPage s pi
  | some pg => simp [h, sameCore_refl]

theorem sameCore_getOrCreatePage (s : Store) (pi : Nat) :
    sameCore s (getOrCreatePage s pi).1 := by
  unfold getOrCreatePage loadOrCreatePage
  cases h : alookup s.pages pi with
  | none => simpa [h] using sameCore_loadPage s pi
  | some pg => simp [h, sameCore_refl]

theorem sameCore_writeChunk (s : Store) (reqOffset : Nat) (d : List Nat) (off len : Nat) :
    sameCore s (writeChunk s reqOffset d off len) := by
  unfold writeChunk
  have h1 : sameCore s ({ (getOrCreatePage s (off / s.pageSize)).1 with
      pages := aset (getOrCreatePage s (off / s.pageSize)).1.pages (off / s.pageSize)
        ⟨writeChunkData (getOrCreatePage s (off / s.pageSize)).2.data s.pageSize reqOffset d
          off len, true⟩ } : Store) := by
    refine sameCore_trans (sameCore_getOrCreatePage s (off / s.pageSize)) ?_
    simp [sameCore]
  dsimp only
  split
  · exact h1
  · exact sameCore_trans h1 (sameCore_touchStore _ _)

theorem sameCore_writeLoop (reqOffset : Nat) (d : List Nat) (fuel off rem : Nat) (s : Store) :
    sameCore s (writeLoop reqOffset d fuel off rem s) := by
  induction fuel generalizing off rem s with
  | zero => exact sameCore_refl s
  | succ fuel ih =>
    unfold writeLoop
    split
    · exact sameCore_refl s
    · refine sameCore_trans ?_ (ih _ _ _)
      split
      · exact sameCore_refl s
      · exact sameCore_writeChunk _ _ _ _ _

theorem sameCore_readChunkStep (reqOffset : Nat) (s : Store) (buf : List Nat) (off len : Nat) :
    sameCore s (readChunkStep reqOffset s buf off len).1 := by
  unfold readChunkStep
  exact sameCore_trans (sameCore_getPage s _) (sameCore_touchStore _ _)

theorem sameCore_readLoop (reqOffset : Nat) (fuel off rem : Nat) (s : Store) (buf : List Nat) :
    sameCore s (readLoop reqOffset fuel off rem s buf).1 := by
  induction fuel generalizing off rem s buf with
  | zero => exact sameCore_refl s
  | succ fuel ih =>
    unfold readLoop
    split
    · exact sameCore_refl s
    · exact sameCore_trans (sameCore_readChunkStep reqOffset s buf off _) (ih _ _ _ _)

theorem sameCore_delChunk (s : Store) (off len : Nat) :
    sameCore s (delChunk s off len) := by
  unfold delChunk
  refine sameCore_trans (sameCore_getPage s (off / s.pageSize)) ?_
  simp [sameCore]

theorem sameCore_delLoop (fuel off rem : Nat) (s : Store) :
    sameCore s (delLoop fuel off rem s) := by
  induction fuel generalizing off rem s with
  | zero => exact sameCore_refl s
  | succ fuel ih =>
    unfold delLoop
    split
    · exact sameCore_refl s
    · exact sameCore_trans (sameCore_delChunk s off _) (ih _ _ _)

theorem sameCore_pageSize {s t : Store} (h : sameCore s t) : s.pageSize = t.pageSize := h.1

theorem sameCore_maxPages {s t : Store} (h : sameCore s t) : s.maxPages = t.maxPages := h.2.1

theorem sameCore_strict {s t : Store} (h : sameCore s t) :
    s.strictSizeLimit = t.strictSizeLimit := h.2.2.1

theorem sameCore_autoFlush {s t : Store} (h : sameCore s t) :
    s.autoFlushOnEvict = t.autoFlushOnEvict := h.2.2.2.1

theorem sameCore_bitmask {s t : Store} (h : sameCore s t) : s.bitmask = t.bitmask :=
  h.2.2.2.2.1

theorem sameCore_size {s t : Store} (h : sameCore s t) : s.size = t.size :=
  h.2.2.2.2.2.1

theorem sameCore_fileExists {s t : Store} (h : sameCore s t) : s.fileExists = t.fileExists :=
  h.2.2.2.2.2.2.1

theorem sameCore_pinnedPages {s t : Store} (h : sameCore s t) : s.pinnedPages = t.pinnedPages :=
  h.2.2.2.2.2.2.2

/-! ### Pointwise characterisation of buffers and backend writes -/

theorem getD_append_left {l1 l2 : List Nat} {i : Nat} (h : i < l1.length) :
    (l1 ++ l2).getD i 0 = l1.getD i 0 := by
  simp [List.getD, List.getElem?_append_left h]

theorem getD_append_right {l1 l2 : List Nat} {i : Nat} (h : l1.length ≤ i) :
    (l1 ++ l2).getD i 0 = l2.getD (i - l1.length) 0 := by
  simp [List.getD, List.getElem?_append_right h]

theorem getD_eq_zero_of_le {l : List Nat} {i : Nat} (h : l.length ≤ i) :
    l.getD i 0 = 0 := by
  simp [List.getD, List.getElem?_eq_none h]

theorem getD_take {l : List Nat} {n i : Nat} :
    (l.take n).getD i 0 = if i < n then l.getD i 0 else 0 := by
  split
  · simp [List.getD, List.getElem?_take, *]
  · refine getD_eq_zero_of_le ?_
    simp only [List.length_take]
    omega

theorem getD_drop {l : List Nat} {n i : Nat} :
    (l.drop n).getD i 0 = l.getD (n + i) 0 := by
  simp [List.getD, List.getElem?_drop]

theorem getD_replicate {n i : Nat} :
    (List.replicate n (0 : Nat)).getD i 0 = 0 := by
  rcases lt_or_le i n with h | h
  · simp [List.getD, List.getElem?_replicate, h]
  · exact getD_eq_zero_of_le (by simpa using h)

theorem overlayAt_length {dst : List Nat} {pos : Nat} {src : List Nat} (h : pos ≤ dst.length) :
    (overlayAt dst pos src).length = dst.length := by
  simp only [overlayAt, List.length_append, List.length_take, List.length_drop]
  omega

theorem overlayAt_getD {dst : List Nat} {pos : Nat} {src : List Nat} {i : Nat}
    (h : pos ≤ dst.length) :
    (overlayAt dst pos src).getD i 0 =
      if pos ≤ i ∧ i < pos + src.length ∧ i < dst.length then src.getD (i - pos) 0
      else dst.getD i 0 := by
  unfold overlayAt
  have htl : (dst.take pos).length = pos := by simp; omega
  rcases lt_or_le i pos with hi | hi
  · rw [getD_append_left (by omega), getD_take, if_pos hi, if_neg (by omega)]
  · rw [getD_append_right (by omega), htl, getD_take]
    rcases lt_or_le i dst.length with hd | hd
    · rw [if_pos (by omega)]
      rcases lt_or_le i (pos + src.length) with hs | hs
      · rw [getD_append_left (by omega), if_pos ⟨hi, hs, hd⟩]
      · rw [getD_append_right (by omega), getD_drop, if_neg (by omega)]
        congr 1
        omega
    · rw [if_neg (by omega), if_neg (by omega), getD_eq_zero_of_le hd]

theorem backendWrite_length (b : Backend) (off : Nat) (buf : List Nat) :
    (backendWrite b off buf).data.length = max b.data.length (off + buf.length) := by
  unfold backendWrite
  rw [overlayAt_length (by simp; omega)]
  simp
  omega

theorem bget_backendWrite (b : Backend) (off : Nat) (buf : List Nat) (i : Nat) :
    bget (backendWrite b off buf) i =
      if off ≤ i ∧ i < off + buf.length then buf.getD (i - off) 0 else bget b i := by
  unfold backendWrite bget
  rw [overlayAt_getD (by simp; omega)]
  rcases lt_or_le i b.data.length with hb | hb
  · simp only [List.length_append, List.length_replicate]
    split
    · rw [if_pos (by omega)]
    · rw [if_neg (by omega), getD_append_left hb]
  · simp only [List.length_append, List.length_replicate]
    split
    · rw [if_pos (by omega)]
    · rw [if_neg (by omega), getD_eq_zero_of_le hb]
      rcases lt_or_le i (b.data.length + (off + buf.length - b.data.length)) with h2 | h2
      · rw [getD_append_right hb, getD_replicate]
      · rw [getD_eq_zero_of_le (by simp; omega)]

theorem backendTruncate_length (b : Backend) (L : Nat) :
    (backendTruncate b L).data.length = L := by
  simp only [backendTruncate, List.length_take, List.length_append, List.length_replicate]
  omega

theorem bget_backendTruncate (b : Backend) (L i : Nat) :
    bget (backendTruncate b L) i = if i < L then bget b i else 0 := by
  unfold backendTruncate bget
  rw [getD_take]
  split
  · rcases lt_or_le i b.data.length with hb | hb
    · rw [getD_append_left hb]
    · rw [getD_append_right hb, getD_replicate, getD_eq_zero_of_le hb]
  · rfl

theorem backend_eq_of {b1 b2 : Backend} (h1 : b1.data.length = b2.data.length)
    (h2 : ∀ i, bget b1 i = bget b2 i) : b1 = b2 := by
  cases b1 with
  | mk d1 =>
    cases b2 with
    | mk d2 =>
      congr 1
      refine List.ext_getElem (by simpa using h1) ?_
      intro i hi1 hi2
      have := h2 i
      simp only [bget] at this
      rwa [List.getD_eq_getElem d1 0 hi1, List.getD_eq_getElem d2 0 hi2] at this

theorem bget_applyWrites (b : Backend) (ws : List (Nat × List Nat)) (i : Nat) :
    bget (applyWrites b ws) i = (lastCover ws i).getD (bget b i) := by
  induction ws generalizing b with
  | nil => rfl
  | cons w ws ih =>
    unfold applyWrites lastCover
    rw [ih]
    cases hlc : lastCover ws i with
    | some v => simp
    | none =>
      simp only [Option.getD_none]
      rw [bget_backendWrite]
      unfold coverOf
      split
      · simp
      · simp

theorem applyWrites_length (b : Backend) (ws : List (Nat × List Nat)) :
    (applyWrites b ws).data.length = max b.data.length (wmax ws) := by
  induction ws generalizing b with
  | nil => simp [applyWrites, wmax]
  | cons w ws ih =>
    unfold applyWrites wmax
    rw [ih, backendWrite_length]
    omega

/-! ### The flush loop as clearing of dirty flags plus a write list -/

theorem applyWrites_cons (b : Backend) (w : Nat × List Nat) (ws : List (Nat × List Nat)) :
    applyWrites b (w :: ws) = applyWrites (backendWrite b w.1 w.2) ws := rfl

theorem alookup_aset_self : ∀ (l : List (Nat × Page)) (k : Nat) (v : Page),
    alookup (aset l k v) k = some v
  | [], k, v => by simp [aset, alookup]
  | (k', v') :: rest, k, v => by
    unfold aset
    by_cases h : k' = k
    · simp [h, alookup]
    · simp [h, alookup, alookup_aset_self rest k v]

theorem alookup_aset_ne : ∀ (l : List (Nat × Page)) (k : Nat) (v : Page) (k' : Nat),
    k' ≠ k → alookup (aset l k v) k' = alookup l k'
  | [], k, v, k'', h => by
    show alookup [(k, v)] k'' = alookup [] k''
    unfold alookup
    rw [if_neg (fun hh => h hh.symm)]
    rfl
  | (k', v') :: rest, k, v, k'', h => by
    unfold aset
    by_cases h1 : k' = k
    · subst h1
      rw [if_pos rfl]
      unfold alookup
      rw [if_neg (fun hh => h hh.symm), if_neg (fun hh => h hh.symm)]
    · rw [if_neg h1]
      unfold alookup
      by_cases h2 : k' = k''
      · rw [if_pos h2, if_pos h2]
      · rw [if_neg h2, if_neg h2]
        exact alookup_aset_ne rest k v k'' h

theorem alookup_clearMod_self (pages : List (Nat × Page)) (pi : Nat) :
    alookup (clearMod pages pi) pi = (alookup pages pi).map (fun pg => ⟨pg.data, false⟩) := by
  unfold clearMod
  cases h : alookup pages pi with
  | none => simp [h]
  | some pg =>
    by_cases hm : pg.modified
    · simp [hm, alookup_aset_self, h]
    · cases pg with
      | mk d m =>
        simp only [Bool.not_eq_true] at hm
        subst hm
        simp [h]

theorem alookup_clearMod_ne (pages : List (Nat × Page)) (pi k : Nat) (h : k ≠ pi) :
    alookup (clearMod pages pi) k = alookup pages k := by
  unfold clearMod
  cases h1 : alookup pages pi with
  | none => rfl
  | some pg =>
    by_cases hm : pg.modified
    · simp [hm, alookup_aset_ne _ _ _ _ h]
    · simp [hm]

theorem alookup_clearMod_data (pages : List (Nat × Page)) (pi k : Nat) :
    (alookup (clearMod pages pi) k).map Page.data = (alookup pages k).map Page.data := by
  by_cases h : k = pi
  · subst h
    rw [alookup_clearMod_self]
    cases alookup pages k <;> simp
  · rw [alookup_clearMod_ne _ _ _ h]

theorem flushWriteOf_congr {pages1 pages2 : List (Nat × Page)}
    (h : ∀ k, (alookup pages1 k).map Page.data = (alookup pages2 k).map Page.data)
    (offset e ps pi : Nat) :
    flushWriteOf pages1 offset e ps pi = flushWriteOf pages2 offset e ps pi := by
  unfold flushWriteOf
  have hpi := h pi
  cases h1 : alookup pages1 pi <;> cases h2 : alookup pages2 pi <;>
    rw [h1, h2] at hpi <;> simp at hpi <;> simp [hpi]


theorem alookup_foldl_clearMod (pis : List Nat) (pages : List (Nat × Page)) (k : Nat) :
    alookup (pis.foldl clearMod pages) k =
      if k ∈ pis then (alookup pages k).map (fun pg => ⟨pg.data, false⟩)
      else alookup pages k := by
  induction pis generalizing pages with
  | nil => simp
  | cons pi rest ih =>
    simp only [List.foldl_cons]
    rw [ih]
    by_cases hk : k ∈ rest
    · rw [if_pos hk, if_pos (by simp [hk])]
      by_cases hpi : k = pi
      · subst hpi
        rw [alookup_clearMod_self]
        cases alookup pages k <;> simp
      · rw [alookup_clearMod_ne _ _ _ hpi]
    · rw [if_neg hk]
      by_cases hpi : k = pi
      · subst hpi
        rw [alookup_clearMod_self, if_pos (by simp)]
      · rw [alookup_clearMod_ne _ _ _ hpi, if_neg (by simp [hk, hpi])]

theorem flushPagesLoop_eq (offset e ps : Nat) (pis : List Nat) (s : Store) :
    flushPagesLoop offset e ps pis s =
      { s with pages := pis.foldl clearMod s.pages,
               underlying := applyWrites s.underlying
                 (pis.map (flushWriteOf s.pages offset e ps)) } := by
  induction pis generalizing s with
  | nil => simp [flushPagesLoop, applyWrites]
  | cons pi rest ih =>
    show flushPagesLoop offset e ps rest (flushPageStep offset e ps pi s) = _
    rw [ih]
    unfold flushPageStep
    dsimp only
    have hmap : rest.map (flushWriteOf (clearMod s.pages pi) offset e ps) =
        rest.map (flushWriteOf s.pages offset e ps) :=
      List.map_congr_left (fun a _ =>
        flushWriteOf_congr (fun k => alookup_clearMod_data s.pages pi k) offset e ps a)
    rw [hmap]
    simp only [List.foldl_cons, List.map_cons, applyWrites_cons]

/-! ### C7 — flush is idempotent -/

theorem performFlush_eq (s : Store) (o m : Nat) :
    performFlush s o m =
      if s.size < o + m then
        { s with pages := (performFlushPages s o m).foldl clearMod s.pages,
                 underlying := backendTruncate (applyWrites s.underlying
                   ((performFlushPages s o m).map (flushWriteOf s.pages o (o + m) s.pageSize)))
                   s.size }
      else
        { s with pages := (performFlushPages s o m).foldl clearMod s.pages,
                 underlying := applyWrites s.underlying
                   ((performFlushPages s o m).map (flushWriteOf s.pages o (o + m) s.pageSize)) } := by
  unfold performFlush
  dsimp only
  rw [flushPagesLoop_eq]

theorem performFlush_mk (s : Store) (o m : Nat) (P : List (Nat × Page)) (u : Backend) :
    performFlush { s with pages := P, underlying := u } o m =
      if s.size < o + m then
        { s with pages := (performFlushPages s o m).foldl clearMod P,
                 underlying := backendTruncate (applyWrites u
                   ((performFlushPages s o m).map (flushWriteOf P o (o + m) s.pageSize))) s.size }
      else
        { s with pages := (performFlushPages s o m).foldl clearMod P,
                 underlying := applyWrites u
                   ((performFlushPages s o m).map (flushWriteOf P o (o + m) s.pageSize)) } := by
  rw [performFlush_eq]
  rfl

theorem clearMod_of_clean {pages : List (Nat × Page)} {pi : Nat}
    (h : ∀ pg, alookup pages pi = some pg → pg.modified = false) :
    clearMod pages pi = pages := by
  unfold clearMod
  cases h1 : alookup pages pi with
  | none => rfl
  | some pg => simp [h pg h1]

theorem foldl_clearMod_of_clean (pis : List Nat) (pages : List (Nat × Page))
    (h : ∀ pi ∈ pis, ∀ pg, alookup pages pi = some pg → pg.modified = false) :
    pis.foldl clearMod pages = pages := by
  induction pis with
  | nil => rfl
  | cons pi rest ih =>
    simp only [List.foldl_cons]
    rw [clearMod_of_clean (h pi (by simp))]
    exact ih fun pj hj => h pj (by simp [hj])

theorem alookup_foldl_clearMod_clean (pis : List Nat) (pages : List (Nat × Page))
    (pi : Nat) (hmem : pi ∈ pis) :
    ∀ pg, alookup (pis.foldl clearMod pages) pi = some pg → pg.modified = false := by
  intro pg hpg
  rw [alookup_foldl_clearMod, if_pos hmem] at hpg
  cases h : alookup pages pi with
  | none => rw [h] at hpg; simp at hpg
  | some pg0 =>
    rw [h] at hpg
    simp at hpg
    subst hpg
    rfl

theorem alookup_foldl_clearMod_data (pis : List Nat) (pages : List (Nat × Page)) (k : Nat) :
    (alookup (pis.foldl clearMod pages) k).map Page.data = (alookup pages k).map Page.data := by
  rw [alookup_foldl_clearMod]
  split
  · cases alookup pages k <;> simp
  · rfl

theorem applyWrites_idem (b : Backend) (ws : List (Nat × List Nat)) :
    applyWrites (applyWrites b ws) ws = applyWrites b ws := by
  refine backend_eq_of ?_ ?_
  · rw [applyWrites_length (applyWrites b ws) ws, applyWrites_length b ws, max_assoc, max_self]
  · intro i
    rw [bget_applyWrites]
    cases hlc : lastCover ws i with
    | none => simp
    | some v =>
      rw [bget_applyWrites b ws i, hlc]
      simp

theorem trunc_applyWrites_idem (b : Backend) (ws : List (Nat × List Nat)) (L : Nat) :
    backendTruncate (applyWrites (backendTruncate (applyWrites b ws) L) ws) L =
      backendTruncate (applyWrites b ws) L := by
  refine backend_eq_of ?_ ?_
  · rw [backendTruncate_length, backendTruncate_length]
  · intro i
    rw [bget_backendTruncate, bget_backendTruncate]
    split
    · rename_i hi
      rw [bget_applyWrites, bget_backendTruncate, if_pos hi]
      cases hlc : lastCover ws i with
      | none => simp
      | some v =>
        rw [bget_applyWrites b ws i, hlc]
        simp
    · rfl

theorem performFlush_idem (s : Store) (o m : Nat) :
    performFlush (performFlush s o m) o m = performFlush s o m := by
  have hclean : ∀ pi ∈ performFlushPages s o m, ∀ pg,
      alookup ((performFlushPages s o m).foldl clearMod s.pages) pi = some pg →
        pg.modified = false :=
    fun pi hpi => alookup_foldl_clearMod_clean _ _ pi hpi
  have hfold : (performFlushPages s o m).foldl clearMod
      ((performFlushPages s o m).foldl clearMod s.pages) =
      (performFlushPages s o m).foldl clearMod s.pages :=
    foldl_clearMod_of_clean _ _ hclean
  have hmap : (performFlushPages s o m).map
        (flushWriteOf ((performFlushPages s o m).foldl clearMod s.pages) o (o + m) s.pageSize) =
      (performFlushPages s o m).map (flushWriteOf s.pages o (o + m) s.pageSize) :=
    List.map_congr_left fun a _ =>
      flushWriteOf_congr (fun k => alookup_foldl_clearMod_data _ s.pages k) o (o + m) s.pageSize a
  rw [performFlush_eq s o m]
  split
  · rename_i hlt
    rw [performFlush_mk, if_pos hlt, hfold, hmap, trunc_applyWrites_idem]
  · rename_i hge
    rw [performFlush_mk, if_neg hge, hfold, hmap, applyWrites_idem]

/-- C7: flushing `[o, o + n)` twice is the same as flushing it once — the
second flush leaves the whole store (pages, dirty flags, LRU, size and
backend contents) exactly as the first left it — and every page the second
flush processes (the pages of `[o, o + min(n, size))`, the range after
`flush`'s clipping of `size`) that is resident is clean after the first
flush. -/
theorem c7_flush_idempotent (s : Store) (o n : Nat) :
    flushOp (flushOp s o n) o n = flushOp s o n ∧
    ∀ pi ∈ performFlushPages s o (min n s.size), ∀ pg,
      alookup (flushOp s o n).pages pi = some pg → pg.modified = false := by
  have hsz : (performFlush s o (min n s.size)).size = s.size :=
    (sameCore_size (sameCore_performFlush s o (min n s.size))).symm
  constructor
  · unfold flushOp
    rw [hsz]
    exact performFlush_idem s o (min n s.size)
  · intro pi hpi pg hpg
    have hpages : (flushOp s o n).pages =
        (performFlushPages s o (min n s.size)).foldl clearMod s.pages := by
      unfold flushOp
      rw [performFlush_eq]
      split
      · rfl
      · rfl
    rw [hpages] at hpg
    exact alookup_foldl_clearMod_clean (performFlushPages s o (min n s.size)) s.pages pi hpi pg hpg


/-! ### Chunk structure of the read and write loops, and page loads -/

theorem pageChunks_fuel {ps : Nat} (hps : 0 < ps) :
    ∀ rem fuel off, rem ≤ fuel → pageChunks ps fuel off rem = pageChunks ps rem off rem := by
  intro rem
  induction rem using Nat.strong_induction_on with
  | _ rem ih =>
    intro fuel off h
    rcases Nat.eq_zero_or_pos rem with h0 | h0
    · subst h0
      cases fuel with
      | zero => rfl
      | succ f =>
        show pageChunks ps (f + 1) off 0 = pageChunks ps 0 off 0
        simp [pageChunks]
    · obtain ⟨r, rfl⟩ : ∃ r, rem = r + 1 := ⟨rem - 1, by omega⟩
      obtain ⟨f, rfl⟩ : ∃ f, fuel = f + 1 := ⟨fuel - 1, by omega⟩
      have hpo : off % ps < ps := Nat.mod_lt off hps
      have hmin : 0 < min (ps - off % ps) (r + 1) := lt_min (by omega) (by omega)
      have h1 : ¬(r + 1 = 0) := by omega
      have h2 : ¬(min (ps - off % ps) (r + 1) = 0) := by omega
      show pageChunks ps (f + 1) off (r + 1) = pageChunks ps (r + 1) off (r + 1)
      simp only [pageChunks]
      rw [if_neg h1, if_neg h2, if_neg h1, if_neg h2]
      congr 1
      have hle : min (ps - off % ps) (r + 1) ≤ r + 1 := min_le_right _ _
      rw [ih (r + 1 - min (ps - off % ps) (r + 1)) (by omega) f _ (by omega),
        ih (r + 1 - min (ps - off % ps) (r + 1)) (by omega) r _ (by omega)]

theorem pageChunks_unfold {ps : Nat} (hps : 0 < ps) (off rem : Nat) (hrem : rem ≠ 0) :
    pageChunks ps rem off rem =
      (off, min (ps - off % ps) rem) ::
        pageChunks ps (rem - min (ps - off % ps) rem) (off + min (ps - off % ps) rem)
          (rem - min (ps - off % ps) rem) := by
  have hpo : off % ps < ps := Nat.mod_lt off hps
  have hmin : 0 < min (ps - off % ps) rem := lt_min (by omega) (by omega)
  have h2 : ¬(min (ps - off % ps) rem = 0) := by omega
  obtain ⟨r, rfl⟩ : ∃ r, rem = r + 1 := ⟨rem - 1, by omega⟩
  show pageChunks ps (r + 1) off (r + 1) = _
  simp only [pageChunks]
  rw [if_neg (by omega : ¬(r + 1 = 0)), if_neg h2]
  congr 1
  exact pageChunks_fuel hps (r + 1 - min (ps - off % ps) (r + 1)) r
    (off + min (ps - off % ps) (r + 1)) (by omega)

theorem pageChunks_mem_spec {ps : Nat} (hps : 0 < ps) :
    ∀ rem off c, c ∈ pageChunks ps rem off rem →
      off ≤ c.1 ∧ c.1 + c.2 ≤ off + rem ∧ 0 < c.2 ∧ c.1 % ps + c.2 ≤ ps := by
  intro rem
  induction rem using Nat.strong_induction_on with
  | _ rem ih =>
    intro off c hc
    rcases Nat.eq_zero_or_pos rem with h0 | h0
    · subst h0
      simp [pageChunks] at hc
    · rw [pageChunks_unfold hps off rem (by omega)] at hc
      have hpo : off % ps < ps := Nat.mod_lt off hps
      have hlen : 0 < min (ps - off % ps) rem := by
        apply lt_min <;> omega
      rcases List.mem_cons.mp hc with he | ht
      · subst he
        refine ⟨le_refl _, ?_, hlen, ?_⟩ <;> simp <;> omega
      · have := ih _ (by omega) _ _ ht
        refine ⟨by omega, by omega, this.2.2.1, this.2.2.2⟩

theorem pageChunks_cover {ps : Nat} (hps : 0 < ps) :
    ∀ rem off i, off ≤ i → i < off + rem →
      ∃ c ∈ pageChunks ps rem off rem, c.1 ≤ i ∧ i < c.1 + c.2 := by
  intro rem
  induction rem using Nat.strong_induction_on with
  | _ rem ih =>
    intro off i h1 h2
    have h0 : rem ≠ 0 := by omega
    rw [pageChunks_unfold hps off rem h0]
    have hpo : off % ps < ps := Nat.mod_lt off hps
    have hlen : 0 < min (ps - off % ps) rem := by
      apply lt_min <;> omega
    rcases lt_or_le i (off + min (ps - off % ps) rem) with hi | hi
    · exact ⟨(off, min (ps - off % ps) rem), by simp, h1, hi⟩
    · have hrem : rem - min (ps - off % ps) rem < rem := by omega
      obtain ⟨c, hc, hc1, hc2⟩ := ih _ hrem (off + min (ps - off % ps) rem) i hi (by omega)
      exact ⟨c, by simp [hc], hc1, hc2⟩

theorem pageChunks_pairwise {ps : Nat} (hps : 0 < ps) :
    ∀ rem off, List.Pairwise (fun c1 c2 : Nat × Nat => c1.1 / ps < c2.1 / ps)
      (pageChunks ps rem off rem) := by
  intro rem
  induction rem using Nat.strong_induction_on with
  | _ rem ih =>
    intro off
    rcases Nat.eq_zero_or_pos rem with h0 | h0
    · subst h0
      simp [pageChunks]
    · rw [pageChunks_unfold hps off rem (by omega)]
      have hpo : off % ps < ps := Nat.mod_lt off hps
      have hlen : 0 < min (ps - off % ps) rem := by
        apply lt_min <;> omega
      refine List.Pairwise.cons ?_ (ih _ (by omega) _)
      intro c hc
      have hspec := pageChunks_mem_spec hps _ _ _ hc
      rcases lt_or_le (min (ps - off % ps) rem) (ps - off % ps) with hm | hm
      · have : rem - min (ps - off % ps) rem = 0 := by omega
        rw [this] at hc
        simp [pageChunks] at hc
      · have hdm := Nat.div_add_mod off ps
        have hj : ps * (off / ps + 1) = ps * (off / ps) + ps := by ring
        have hnext : ps * (off / ps + 1) ≤ c.1 := by omega
        have hgoal : off / ps + 1 ≤ c.1 / ps := by
          rw [Nat.le_div_iff_mul_le hps]
          have hj2 : (off / ps + 1) * ps = ps * (off / ps) + ps := by ring
          omega
        show (off, min (ps - off % ps) rem).1 / ps < c.1 / ps
        simp only
        omega


theorem getD_backendRead (b : Backend) (off len j : Nat) :
    (backendRead b off len).getD j 0 = if j < len then bget b (off + j) else 0 := by
  unfold backendRead bget
  split
  · rename_i hj
    simp [List.getD, List.getElem?_map, List.getElem?_range hj]
  · refine getD_eq_zero_of_le ?_
    simp only [List.length_map, List.length_range]
    omega

theorem chunk_div_mod (ps pi j : Nat) (hps : 0 < ps) (hj : j < ps) :
    (pi * ps + j) / ps = pi ∧ (pi * ps + j) % ps = j := by
  constructor
  · rw [Nat.add_comm, Nat.add_mul_div_right _ _ hps, Nat.div_eq_of_lt hj]
    omega
  · rw [Nat.mul_comm, Nat.mul_add_mod, Nat.mod_eq_of_lt hj]

theorem view_resident {s : Store} {i : Nat} {pg : Page}
    (h : alookup s.pages (i / s.pageSize) = some pg) :
    view s i = pg.data.getD (i % s.pageSize) 0 := by
  unfold view
  rw [h]

theorem view_missing {s : Store} {i : Nat}
    (h : alookup s.pages (i / s.pageSize) = none) :
    view s i = if s.fileExists ∧ i < s.size then bget s.underlying i else 0 := by
  unfold view
  rw [h]
  rfl

theorem lruEnforce_id (fuel : Nat) (s : Store) (h : s.lru.length ≤ s.maxPages) :
    lruEnforce fuel s = s := by
  cases fuel with
  | zero => rfl
  | succ f =>
    unfold lruEnforce
    rw [if_pos h]

theorem lruEnforce_pages (fuel : Nat) : ∀ s : Store, (lruEnforce fuel s).pages = s.pages := by
  induction fuel with
  | zero =>
    intro s
    rfl
  | succ fuel ih =>
    intro s
    unfold lruEnforce
    split
    · rfl
    · exact ih _

theorem lruEnforce_underlying (fuel : Nat) :
    ∀ s : Store, (lruEnforce fuel s).underlying = s.underlying := by
  induction fuel with
  | zero =>
    intro s
    rfl
  | succ fuel ih =>
    intro s
    unfold lruEnforce
    split
    · rfl
    · exact ih _

theorem loadPage_pages (s : Store) (pi : Nat) :
    (loadPage s pi).1.pages = aset s.pages pi (loadPage s pi).2 := by
  show (lruSetStore { s with pages := aset s.pages pi (loadPage s pi).2 } pi).pages =
    aset s.pages pi (loadPage s pi).2
  unfold lruSetStore
  rw [lruEnforce_pages]

theorem loadPage_underlying (s : Store) (pi : Nat) :
    (loadPage s pi).1.underlying = s.underlying := by
  show (lruSetStore { s with pages := aset s.pages pi (loadPage s pi).2 } pi).underlying =
    s.underlying
  unfold lruSetStore
  rw [lruEnforce_underlying]

theorem loadPage_data_len (s : Store) (pi : Nat) :
    (loadPage s pi).2.data.length = s.pageSize := by
  unfold loadPage
  dsimp only
  split
  · rename_i h
    simp only [Page.mk.injEq, List.length_append, List.length_replicate]
    unfold backendRead
    simp only [List.length_map, List.length_range]
    omega
  · simp

theorem loadPage_data_view (s : Store) (pi : Nat) (hps : 0 < s.pageSize)
    (hfile : s.fileExists = true) :
    ∀ j, j < s.pageSize → (loadPage s pi).2.data.getD j 0 =
      if pi * s.pageSize + j < s.size then bget s.underlying (pi * s.pageSize + j) else 0 := by
  intro j hj
  unfold loadPage
  dsimp only
  split
  · rename_i h
    obtain ⟨-, hbtr⟩ := h
    rcases lt_or_le j (min s.pageSize (s.size - pi * s.pageSize)) with hl | hl
    · rw [getD_append_left]
      · rw [getD_backendRead, if_pos hl, if_pos (by omega)]
      · unfold backendRead
        simp only [List.length_map, List.length_range]
        omega
    · rw [getD_append_right]
      · rw [getD_replicate, if_neg (by omega)]
      · unfold backendRead
        simp only [List.length_map, List.length_range]
        omega
  · rename_i h
    rw [hfile] at h
    simp only [true_and] at h
    push_neg at h
    rw [getD_replicate, if_neg (by omega)]


theorem getPage_underlying (s : Store) (pi : Nat) :
    (getPage s pi).1.underlying = s.underlying := by
  unfold getPage
  cases h : alookup s.pages pi with
  | none =>
    simp only [h]
    exact loadPage_underlying s pi
  | some pg => simp only [h]

theorem getPage_alookup (s : Store) (pi : Nat) (k : Nat) :
    alookup (getPage s pi).1.pages k =
      if k = pi then some (getPage s pi).2 else alookup s.pages k := by
  unfold getPage
  cases h : alookup s.pages pi with
  | some pg =>
    simp only [h]
    by_cases hk : k = pi
    · subst hk
      rw [if_pos rfl, h]
    · rw [if_neg hk]
  | none =>
    simp only [h]
    rw [loadPage_pages]
    by_cases hk : k = pi
    · subst hk
      rw [if_pos rfl]
      exact alookup_aset_self _ _ _
    · rw [if_neg hk]
      exact alookup_aset_ne _ _ _ _ hk

theorem getPage_data_view (s : Store) (pi : Nat) (hps : 0 < s.pageSize)
    (hfile : s.fileExists = true) :
    ∀ j, j < s.pageSize → (getPage s pi).2.data.getD j 0 = view s (pi * s.pageSize + j) := by
  intro j hj
  have hd := chunk_div_mod s.pageSize pi j hps hj
  unfold getPage
  cases h : alookup s.pages pi with
  | some pg =>
    simp only [h]
    rw [view_resident (show alookup s.pages ((pi * s.pageSize + j) / s.pageSize) =
      some pg by rw [hd.1]; exact h), hd.2]
  | none =>
    simp only [h]
    rw [loadPage_data_view s pi hps hfile j hj,
      view_missing (by rw [hd.1]; exact h), hfile]
    simp

theorem view_congr {s t : Store} (hp : t.pageSize = s.pageSize)
    (hfe : t.fileExists = s.fileExists) (hsz : t.size = s.size)
    (hund : t.underlying = s.underlying) (i : Nat)
    (hpg : alookup t.pages (i / s.pageSize) = alookup s.pages (i / s.pageSize)) :
    view t i = view s i := by
  unfold view
  rw [hp, hpg, hfe, hsz, hund]

theorem getPage_view (s : Store) (pi : Nat) (hps : 0 < s.pageSize)
    (hfile : s.fileExists = true) :
    ∀ i, view (getPage s pi).1 i = view s i := by
  intro i
  unfold getPage
  cases h : alookup s.pages pi with
  | some pg => simp only [h]
  | none =>
    simp only [h]
    have score := sameCore_loadPage s pi
    have hps1 : (loadPage s pi).1.pageSize = s.pageSize := (sameCore_pageSize score).symm
    have hfe1 : (loadPage s pi).1.fileExists = s.fileExists := (sameCore_fileExists score).symm
    have hsz1 : (loadPage s pi).1.size = s.size := (sameCore_size score).symm
    have hu1 := loadPage_underlying s pi
    have hpg1 := loadPage_pages s pi
    by_cases hpi : i / s.pageSize = pi
    · have hmod : i % s.pageSize < s.pageSize := Nat.mod_lt i hps
      have hdm : s.pageSize * (i / s.pageSize) + i % s.pageSize = i := Nat.div_add_mod i s.pageSize
      have hi2 : pi * s.pageSize + i % s.pageSize = i := by
        rw [← hpi, Nat.mul_comm]
        exact hdm
      have hlook : alookup (loadPage s pi).1.pages (i / (loadPage s pi).1.pageSize) =
          some (loadPage s pi).2 := by
        rw [hps1, hpi, hpg1]
        exact alookup_aset_self _ _ _
      rw [view_resident hlook, hps1]
      rw [loadPage_data_view s pi hps hfile (i % s.pageSize) hmod, hi2,
        view_missing (show alookup s.pages (i / s.pageSize) = none from by rw [hpi]; exact h),
        hfile]
      simp [bget]
    · refine view_congr hps1 hfe1 hsz1 hu1 i ?_
      rw [hpg1]
      exact alookup_aset_ne _ _ _ _ hpi
  

/-! ### Effect of one write chunk on the page map and the view -/

theorem touchStore_pages (s : Store) (pi : Nat) : (touchStore s pi).pages = s.pages := by
  unfold touchStore
  split <;> rfl

theorem touchStore_underlying (s : Store) (pi : Nat) :
    (touchStore s pi).underlying = s.underlying := by
  unfold touchStore
  split <;> rfl

theorem touchStore_lru_len (s : Store) (pi : Nat) :
    (touchStore s pi).lru.length = s.lru.length := by
  unfold touchStore
  split
  · rename_i h
    simp only [List.length_cons]
    rw [List.length_erase_of_mem h]
    have : 0 < s.lru.length := List.length_pos_of_mem h
    omega
  · rfl

theorem touchStore_view (s : Store) (pi : Nat) (i : Nat) :
    view (touchStore s pi) i = view s i := by
  unfold touchStore
  split <;> rfl

theorem writeChunkData_len (pgdata : List Nat) (ps o : Nat) (d : List Nat) (off len : Nat) :
    off % ps + len ≤ (writeChunkData pgdata ps o d off len).length ∧
    ((¬ pgdata.length < off % ps + len) →
      (writeChunkData pgdata ps o d off len).length = pgdata.length) := by
  unfold writeChunkData
  dsimp only
  have hglen : off % ps + len ≤ (if pgdata.length < off % ps + len
      then pgdata ++ List.replicate (off % ps + len - pgdata.length) 0 else pgdata).length := by
    split
    · simp only [List.length_append, List.length_replicate]
      omega
    · rename_i h
      omega
  constructor
  · rw [overlayAt_length (by omega)]
    exact hglen
  · intro hng
    rw [if_neg hng, overlayAt_length (by omega)]

theorem writeChunkData_getD (pgdata : List Nat) (ps o : Nat) (d : List Nat) (off len : Nat)
    (hslice : off - o + len ≤ d.length) (j : Nat) :
    (writeChunkData pgdata ps o d off len).getD j 0 =
      if off % ps ≤ j ∧ j < off % ps + len then d.getD (off - o + (j - off % ps)) 0
      else pgdata.getD j 0 := by
  unfold writeChunkData
  dsimp only
  have hsl : ((d.drop (off - o)).take len).length = len := by
    simp only [List.length_take, List.length_drop]
    omega
  have hgrow : ∀ k, (if pgdata.length < off % ps + len
      then pgdata ++ List.replicate (off % ps + len - pgdata.length) 0 else pgdata).getD k 0 =
      pgdata.getD k 0 := by
    intro k
    split
    · rcases lt_or_le k pgdata.length with hk | hk
      · rw [getD_append_left hk]
      · rw [getD_append_right hk, getD_replicate, getD_eq_zero_of_le hk]
    · rfl
  have hglen : off % ps + len ≤ (if pgdata.length < off % ps + len
      then pgdata ++ List.replicate (off % ps + len - pgdata.length) 0 else pgdata).length := by
    split
    · simp only [List.length_append, List.length_replicate]
      omega
    · rename_i h
      omega
  rw [overlayAt_getD (by omega), hsl]
  by_cases hcov : off % ps ≤ j ∧ j < off % ps + len
  · rw [if_pos ⟨hcov.1, hcov.2, by omega⟩, if_pos hcov, getD_take, if_pos (by omega), getD_drop]
  · rw [if_neg (fun h => hcov ⟨h.1, h.2.1⟩), if_neg hcov, hgrow]


theorem getOrCreatePage_eq (s : Store) (pi : Nat) : getOrCreatePage s pi = getPage s pi := by
  unfold getOrCreatePage getPage loadOrCreatePage
  rfl

theorem writeChunk_underlying (s : Store) (o : Nat) (d : List Nat) (off len : Nat) :
    (writeChunk s o d off len).underlying = s.underlying := by
  simp only [writeChunk, getOrCreatePage_eq]
  split
  · exact getPage_underlying s _
  · rw [touchStore_underlying]
    exact getPage_underlying s _

theorem writeChunk_alookup_ne (s : Store) (o : Nat) (d : List Nat) (off len : Nat)
    (k : Nat) (hk : k ≠ off / s.pageSize) :
    alookup (writeChunk s o d off len).pages k = alookup s.pages k := by
  simp only [writeChunk, getOrCreatePage_eq]
  have step : alookup (aset (getPage s (off / s.pageSize)).1.pages (off / s.pageSize)
      ⟨writeChunkData (getPage s (off / s.pageSize)).2.data s.pageSize o d off len, true⟩) k =
      alookup s.pages k := by
    rw [alookup_aset_ne _ _ _ _ hk, getPage_alookup s (off / s.pageSize) k, if_neg hk]
  split
  · exact step
  · rw [touchStore_pages]
    exact step

theorem writeChunk_alookup_self (s : Store) (o : Nat) (d : List Nat) (off len : Nat) :
    alookup (writeChunk s o d off len).pages (off / s.pageSize) =
      some ⟨writeChunkData (getPage s (off / s.pageSize)).2.data s.pageSize o d off len,
        true⟩ := by
  simp only [writeChunk, getOrCreatePage_eq]
  split
  · exact alookup_aset_self _ _ _
  · rw [touchStore_pages]
    exact alookup_aset_self _ _ _

theorem writeChunk_page_spec (s : Store) (o : Nat) (d : List Nat) (off len : Nat)
    (hps : 0 < s.pageSize) (hfile : s.fileExists = true)
    (hslice : off - o + len ≤ d.length) :
    ∃ pg, alookup (writeChunk s o d off len).pages (off / s.pageSize) = some pg ∧
      off % s.pageSize + len ≤ pg.data.length ∧
      ∀ j, j < s.pageSize → pg.data.getD j 0 =
        (if off % s.pageSize ≤ j ∧ j < off % s.pageSize + len
          then d.getD (off - o + (j - off % s.pageSize)) 0
          else view s (off / s.pageSize * s.pageSize + j)) := by
  refine ⟨_, writeChunk_alookup_self s o d off len, ?_, ?_⟩
  · exact (writeChunkData_len _ _ _ _ _ _).1
  · intro j hj
    rw [writeChunkData_getD _ _ _ _ _ _ hslice j]
    split
    · rfl
    · exact getPage_data_view s _ hps hfile j hj

theorem writeChunk_pageSize (s : Store) (o : Nat) (d : List Nat) (off len : Nat) :
    (writeChunk s o d off len).pageSize = s.pageSize :=
  (sameCore_pageSize (sameCore_writeChunk s o d off len)).symm

theorem writeChunk_view_out (s : Store) (o : Nat) (d : List Nat) (off len : Nat)
    (hps : 0 < s.pageSize) (hfile : s.fileExists = true)
    (hchunk : off % s.pageSize + len ≤ s.pageSize) (hslice : off - o + len ≤ d.length)
    (i : Nat) (hout : ¬(off ≤ i ∧ i < off + len)) :
    view (writeChunk s o d off len) i = view s i := by
  have hpseq := writeChunk_pageSize s o d off len
  by_cases hq : i / s.pageSize = off / s.pageSize
  · have hmod : i % s.pageSize < s.pageSize := Nat.mod_lt i hps
    have hdm : s.pageSize * (i / s.pageSize) + i % s.pageSize = i := Nat.div_add_mod i s.pageSize
    have hdo : s.pageSize * (off / s.pageSize) + off % s.pageSize = off :=
      Nat.div_add_mod off s.pageSize
    have hlink : s.pageSize * (i / s.pageSize) = s.pageSize * (off / s.pageSize) := by
      rw [hq]
    have hnw : ¬(off % s.pageSize ≤ i % s.pageSize ∧
        i % s.pageSize < off % s.pageSize + len) := by
      intro hw
      exact hout ⟨by omega, by omega⟩
    have hres := writeChunk_alookup_self s o d off len
    have hres2 : alookup (writeChunk s o d off len).pages
        (i / (writeChunk s o d off len).pageSize) =
        some ⟨writeChunkData (getPage s (off / s.pageSize)).2.data s.pageSize o d off len,
          true⟩ := by
      rw [hpseq, hq]
      exact hres
    have hview := view_resident hres2
    rw [hpseq] at hview
    rw [hview]
    dsimp only
    rw [writeChunkData_getD _ _ _ _ _ _ hslice, if_neg hnw,
      getPage_data_view s _ hps hfile _ hmod]
    have hmul : off / s.pageSize * s.pageSize = s.pageSize * (off / s.pageSize) :=
      Nat.mul_comm _ _
    have : off / s.pageSize * s.pageSize + i % s.pageSize = i := by omega
    rw [this]
  · refine view_congr hpseq ?_ ?_ ?_ i ?_
    · exact (sameCore_fileExists (sameCore_writeChunk s o d off len)).symm
    · exact (sameCore_size (sameCore_writeChunk s o d off len)).symm
    · exact writeChunk_underlying s o d off len
    · exact writeChunk_alookup_ne s o d off len _ hq

/-! ### The write and read loops, end to end -/

theorem writeLoop_unfold (o : Nat) (d : List Nat) (f off rem : Nat) (s : Store) (h0 : rem ≠ 0) :
    writeLoop o d (f + 1) off rem s =
      writeLoop o d f (off + min (s.pageSize - off % s.pageSize) rem)
        (rem - min (s.pageSize - off % s.pageSize) rem)
        (if s.bitmask.isSome ∧
            chunkPasses s.bitmask off (min (s.pageSize - off % s.pageSize) rem) = false
          then s else writeChunk s o d off (min (s.pageSize - off % s.pageSize) rem)) := by
  simp only [writeLoop]
  rw [if_neg h0]

theorem writeLoop_zero (o : Nat) (d : List Nat) (fuel off : Nat) (s : Store) :
    writeLoop o d fuel off 0 s = s := by
  cases fuel <;> simp [writeLoop]

theorem writeLoop_spec (o : Nat) (d : List Nat) :
    ∀ rem fuel off (s : Store), rem ≤ fuel → 0 < s.pageSize → s.fileExists = true →
      o ≤ off → off - o + rem ≤ d.length →
      (writeLoop o d fuel off rem s).underlying = s.underlying ∧
      (∀ k, (∀ c ∈ pageChunks s.pageSize rem off rem,
          chunkPasses s.bitmask c.1 c.2 = true → c.1 / s.pageSize ≠ k) →
        alookup (writeLoop o d fuel off rem s).pages k = alookup s.pages k) ∧
      (∀ i, writtenAt s.bitmask s.pageSize off rem i →
        ∃ pg, alookup (writeLoop o d fuel off rem s).pages (i / s.pageSize) = some pg ∧
          i % s.pageSize < pg.data.length ∧
          pg.data.getD (i % s.pageSize) 0 = d.getD (i - o) 0) ∧
      (∀ i, ¬ writtenAt s.bitmask s.pageSize off rem i →
        view (writeLoop o d fuel off rem s) i = view s i) := by
  intro rem
  induction rem using Nat.strong_induction_on with
  | _ rem ih =>
    intro fuel off s hfuel hps hfile ho hd
    rcases Nat.eq_zero_or_pos rem with h0 | h0
    · subst h0
      rw [writeLoop_zero]
      refine ⟨rfl, fun k _ => rfl, ?_, fun i _ => rfl⟩
      intro i hw
      obtain ⟨c, hc, -⟩ := hw
      simp [pageChunks] at hc
    · obtain ⟨f, rfl⟩ : ∃ f, fuel = f + 1 := ⟨fuel - 1, by omega⟩
      have hpo : off % s.pageSize < s.pageSize := Nat.mod_lt off hps
      obtain ⟨len, hlendef⟩ : ∃ len, min (s.pageSize - off % s.pageSize) rem = len := ⟨_, rfl⟩
      have hlen1 : 0 < len := by omega
      have hlen2 : len ≤ rem := by omega
      have hlen3 : off % s.pageSize + len ≤ s.pageSize := by omega
      have hcase : len = s.pageSize - off % s.pageSize ∨ rem - len = 0 := by omega
      have hchunks : pageChunks s.pageSize rem off rem =
          (off, len) :: pageChunks s.pageSize (rem - len) (off + len) (rem - len) := by
        rw [pageChunks_unfold hps off rem (by omega), hlendef]
      have hrest_pages : ∀ c ∈ pageChunks s.pageSize (rem - len) (off + len) (rem - len),
          c.1 / s.pageSize ≠ off / s.pageSize := by
        intro c hc
        rcases hcase with hcl | hcl
        · have hcs := pageChunks_mem_spec hps _ _ _ hc
          have hdo := Nat.div_add_mod off s.pageSize
          have hmul : s.pageSize * (off / s.pageSize + 1) =
              s.pageSize * (off / s.pageSize) + s.pageSize := by ring
          have h2 : off / s.pageSize + 1 ≤ c.1 / s.pageSize := by
            rw [Nat.le_div_iff_mul_le hps]
            have hmul2 : (off / s.pageSize + 1) * s.pageSize =
                s.pageSize * (off / s.pageSize) + s.pageSize := by ring
            omega
          omega
        · rw [hcl] at hc
          simp [pageChunks] at hc
      have hwa : ∀ i, writtenAt s.bitmask s.pageSize off rem i ↔
          ((off ≤ i ∧ i < off + len ∧ chunkPasses s.bitmask off len = true) ∨
            writtenAt s.bitmask s.pageSize (off + len) (rem - len) i) := by
        intro i
        unfold writtenAt
        rw [hchunks]
        constructor
        · rintro ⟨c, hc, h1, h2, h3⟩
          rcases List.mem_cons.mp hc with he | ht
          · subst he
            exact Or.inl ⟨h1, h2, h3⟩
          · exact Or.inr ⟨c, ht, h1, h2, h3⟩
        · rintro (⟨h1, h2, h3⟩ | ⟨c, hc, h1, h2, h3⟩)
          · exact ⟨(off, len), List.mem_cons_self _ _, h1, h2, h3⟩
          · exact ⟨c, List.mem_cons_of_mem _ hc, h1, h2, h3⟩
      rw [writeLoop_unfold o d f off rem s (by omega), hlendef, hchunks]
      by_cases hskip : chunkPasses s.bitmask off len = false
      · -- the chunk is skipped; the state is unchanged this iteration
        have hsome : s.bitmask.isSome = true := by
          cases hbm : s.bitmask with
          | none => rw [hbm] at hskip; simp [chunkPasses] at hskip
          | some bm => simp
        rw [if_pos ⟨hsome, hskip⟩]
        obtain ⟨ih1, ih3, ih4, ih5⟩ := ih (rem - len) (by omega) f (off + len) s
          (by omega) hps hfile (by omega) (by omega)
        refine ⟨ih1, ?_, ?_, ?_⟩
        · intro k hk
          exact ih3 k fun c hc => hk c (List.mem_cons_of_mem _ hc)
        · intro i hw
          rcases (hwa i).mp hw with ⟨-, -, hpass⟩ | hrest
          · rw [hpass] at hskip
            exact absurd hskip (by simp)
          · exact ih4 i hrest
        · intro i hnw
          have hnrest : ¬ writtenAt s.bitmask s.pageSize (off + len) (rem - len) i :=
            fun hr => hnw ((hwa i).mpr (Or.inr hr))
          exact ih5 i hnrest
      · -- the chunk is written
        have hpass : chunkPasses s.bitmask off len = true := by
          revert hskip
          cases chunkPasses s.bitmask off len <;> simp
        rw [if_neg (fun h => hskip h.2)]
        have hu1 := writeChunk_underlying s o d off len
        have hps1 := writeChunk_pageSize s o d off len
        have score := sameCore_writeChunk s o d off len
        have hbm1 : (writeChunk s o d off len).bitmask = s.bitmask :=
          (sameCore_bitmask score).symm
        have hfe1 : (writeChunk s o d off len).fileExists = true := by
          rw [← sameCore_fileExists score]
          exact hfile
        obtain ⟨ih1, ih3, ih4, ih5⟩ := ih (rem - len) (by omega) f (off + len)
          (writeChunk s o d off len) (by omega) (by rw [hps1]; exact hps) hfe1 (by omega)
          (by omega)
        rw [hps1, hbm1] at ih3 ih4 ih5
        refine ⟨by rw [ih1, hu1], ?_, ?_, ?_⟩
        · intro k hk
          rw [ih3 k fun c hc => hk c (List.mem_cons_of_mem _ hc)]
          exact writeChunk_alookup_ne s o d off len k
            fun hkk => (hk (off, len) (List.mem_cons_self _ _) hpass) hkk.symm
        · intro i hw
          rcases (hwa i).mp hw with ⟨hw1, hw2, -⟩ | hrest
          · have hdo := Nat.div_add_mod off s.pageSize
            have hmc : off / s.pageSize * s.pageSize = s.pageSize * (off / s.pageSize) :=
              Nat.mul_comm _ _
            have heq : i = off / s.pageSize * s.pageSize + (off % s.pageSize + (i - off)) := by
              omega
            have hj : off % s.pageSize + (i - off) < s.pageSize := by omega
            have hdm2 := chunk_div_mod s.pageSize (off / s.pageSize)
              (off % s.pageSize + (i - off)) hps hj
            have hdiv : i / s.pageSize = off / s.pageSize := by
              rw [heq]
              exact hdm2.1
            have hmod : i % s.pageSize = off % s.pageSize + (i - off) := by
              conv_lhs => rw [heq]
              exact hdm2.2
            obtain ⟨pg, hpg, hpglen, hpgval⟩ :=
              writeChunk_page_spec s o d off len hps hfile (by omega)
            refine ⟨pg, ?_, ?_, ?_⟩
            · rw [hdiv, ih3 (off / s.pageSize)
                fun c hc _ => hrest_pages c hc]
              exact hpg
            · omega
            · have hval := hpgval (i % s.pageSize) (by omega)
              rw [hval, if_pos (by omega)]
              congr 1
              omega
          · exact ih4 i hrest
        · intro i hnw
          have hnhead : ¬(off ≤ i ∧ i < off + len) := by
            intro hin
            exact hnw ((hwa i).mpr (Or.inl ⟨hin.1, hin.2, hpass⟩))
          have hnrest : ¬ writtenAt s.bitmask s.pageSize (off + len) (rem - len) i :=
            fun hr => hnw ((hwa i).mpr (Or.inr hr))
          rw [ih5 i hnrest]
          exact writeChunk_view_out s o d off len hps hfile hlen3 (by omega) i hnhead


theorem getPage_hit {s : Store} {pi : Nat} {pg : Page} (h : alookup s.pages pi = some pg) :
    getPage s pi = (s, pg) := by
  unfold getPage
  rw [h]

theorem readLoop_zero (ro : Nat) (fuel off : Nat) (s : Store) (buf : List Nat) :
    readLoop ro fuel off 0 s buf = (s, buf) := by
  cases fuel <;> simp [readLoop]

theorem readLoop_unfold (ro : Nat) (f off rem : Nat) (s : Store) (buf : List Nat)
    (h0 : rem ≠ 0) :
    readLoop ro (f + 1) off rem s buf =
      readLoop ro f (off + min (s.pageSize - off % s.pageSize) rem)
        (rem - min (s.pageSize - off % s.pageSize) rem)
        (readChunkStep ro s buf off (min (s.pageSize - off % s.pageSize) rem)).1
        (readChunkStep ro s buf off (min (s.pageSize - off % s.pageSize) rem)).2 := by
  simp only [readLoop]
  rw [if_neg h0]

theorem readLoop_spec (ro : Nat) :
    ∀ rem fuel off (s : Store) (buf : List Nat), rem ≤ fuel → 0 < s.pageSize →
      (∀ c ∈ pageChunks s.pageSize rem off rem, ∃ pg,
        alookup s.pages (c.1 / s.pageSize) = some pg ∧
        c.1 % s.pageSize + c.2 ≤ pg.data.length) →
      ro ≤ off → off - ro + rem ≤ buf.length →
      (readLoop ro fuel off rem s buf).1.pages = s.pages ∧
      (readLoop ro fuel off rem s buf).1.underlying = s.underlying ∧
      (readLoop ro fuel off rem s buf).2.length = buf.length ∧
      (∀ j, off - ro ≤ j → j < off - ro + rem →
        (readLoop ro fuel off rem s buf).2.getD j 0 = view s (ro + j)) ∧
      (∀ j, ¬(off - ro ≤ j ∧ j < off - ro + rem) →
        (readLoop ro fuel off rem s buf).2.getD j 0 = buf.getD j 0) := by
  intro rem
  induction rem using Nat.strong_induction_on with
  | _ rem ih =>
    intro fuel off s buf hfuel hps hres ho hbuf
    rcases Nat.eq_zero_or_pos rem with h0 | h0
    · subst h0
      rw [readLoop_zero]
      exact ⟨rfl, rfl, rfl, fun j h1 h2 => by omega, fun j _ => rfl⟩
    · obtain ⟨f, rfl⟩ : ∃ f, fuel = f + 1 := ⟨fuel - 1, by omega⟩
      have hpo : off % s.pageSize < s.pageSize := Nat.mod_lt off hps
      obtain ⟨len, hlendef⟩ : ∃ len, min (s.pageSize - off % s.pageSize) rem = len := ⟨_, rfl⟩
      have hlen1 : 0 < len := by omega
      have hlen2 : len ≤ rem := by omega
      have hlen3 : off % s.pageSize + len ≤ s.pageSize := by omega
      have hchunks : pageChunks s.pageSize rem off rem =
          (off, len) :: pageChunks s.pageSize (rem - len) (off + len) (rem - len) := by
        rw [pageChunks_unfold hps off rem (by omega), hlendef]
      obtain ⟨pg, hpg0, hpglen0⟩ := hres (off, len) (by rw [hchunks]; exact List.mem_cons_self _ _)
      have hpg : alookup s.pages (off / s.pageSize) = some pg := hpg0
      have hpglen : off % s.pageSize + len ≤ pg.data.length := hpglen0
      have hstep : readChunkStep ro s buf off len =
          (touchStore s (off / s.pageSize),
           overlayAt buf (off - ro) ((pg.data.drop (off % s.pageSize)).take len)) := by
        simp only [readChunkStep]
        rw [getPage_hit hpg]
      have hsl : ((pg.data.drop (off % s.pageSize)).take len).length = len := by
        simp only [List.length_take, List.length_drop]
        omega
      have hb1len : (overlayAt buf (off - ro) ((pg.data.drop (off % s.pageSize)).take len)).length
          = buf.length := overlayAt_length (by omega)
      have score := sameCore_touchStore s (off / s.pageSize)
      have hps1 : s.pageSize = (touchStore s (off / s.pageSize)).pageSize :=
        sameCore_pageSize score
      have htp := touchStore_pages s (off / s.pageSize)
      have htu := touchStore_underlying s (off / s.pageSize)
      rw [readLoop_unfold ro f off rem s buf (by omega), hlendef, hstep]
      obtain ⟨ih1, ih2, ih3, ih4, ih5⟩ := ih (rem - len) (by omega) f (off + len)
        (touchStore s (off / s.pageSize))
        (overlayAt buf (off - ro) ((pg.data.drop (off % s.pageSize)).take len))
        (by omega) (by rw [← hps1]; exact hps)
        (by
          rw [← hps1, htp]
          intro c hc
          exact hres c (by rw [hchunks]; exact List.mem_cons_of_mem _ hc))
        (by omega) (by rw [hb1len]; omega)
      rw [htp] at ih1
      rw [htu] at ih2
      rw [hb1len] at ih3
      refine ⟨ih1, ih2, ih3, ?_, ?_⟩
      · intro j h1 h2
        by_cases hj : off + len - ro ≤ j
        · rw [ih4 j (by omega) (by omega)]
          exact touchStore_view s (off / s.pageSize) (ro + j)
        · rw [ih5 j (by omega), overlayAt_getD (by omega), if_pos ⟨h1, by omega, by omega⟩,
            getD_take, if_pos (by omega), getD_drop]
          have hdo := Nat.div_add_mod off s.pageSize
          have hmc : off / s.pageSize * s.pageSize = s.pageSize * (off / s.pageSize) :=
            Nat.mul_comm _ _
          have heq : ro + j =
              off / s.pageSize * s.pageSize + (off % s.pageSize + (j - (off - ro))) := by
            omega
          have hjj : off % s.pageSize + (j - (off - ro)) < s.pageSize := by omega
          have hdm := chunk_div_mod s.pageSize (off / s.pageSize)
            (off % s.pageSize + (j - (off - ro))) hps hjj
          have hdiv : (ro + j) / s.pageSize = off / s.pageSize := by
            rw [heq]
            exact hdm.1
          have hmod : (ro + j) % s.pageSize = off % s.pageSize + (j - (off - ro)) := by
            rw [heq]
            exact hdm.2
          rw [view_resident (show alookup s.pages ((ro + j) / s.pageSize) = some pg by
            rw [hdiv]; exact hpg), hmod]
      · intro j hout
        rw [ih5 j (by omega), overlayAt_getD (by omega), if_neg (by omega)]

theorem readOp_eq (s : Store) (o n : Nat) (hfile : s.fileExists = true)
    (hstrict : strictViolated s o n = false) :
    readOp s o n = ((readLoop o n o n s (List.replicate n 0)).1,
      Except.ok (readLoop o n o n s (List.replicate n 0)).2) := by
  unfold readOp
  rw [hfile, hstrict]
  rfl

theorem writeOp_eq (s : Store) (o : Nat) (d : List Nat)
    (hstrict : strictViolated s o d.length = false) :
    writeOp s o d =
      ({ writeLoop o d d.length o d.length s with
          size := max (writeLoop o d d.length o d.length s).size (o + d.length) }, none) := by
  unfold writeOp
  rw [hstrict]
  rfl

theorem strictViolated_eqSL {s t : Store} (h : t.strictSizeLimit = s.strictSizeLimit)
    (o n : Nat) : strictViolated t o n = strictViolated s o n := by
  unfold strictViolated
  rw [h]

theorem readOp_spec (s : Store) (o n : Nat) (hps : 0 < s.pageSize)
    (hfile : s.fileExists = true) (hstrict : strictViolated s o n = false)
    (hres : ∀ c ∈ pageChunks s.pageSize n o n, ∃ pg,
      alookup s.pages (c.1 / s.pageSize) = some pg ∧
      c.1 % s.pageSize + c.2 ≤ pg.data.length) :
    ∃ buf, (readOp s o n).2 = Except.ok buf ∧ buf.length = n ∧
      ∀ j, j < n → buf.getD j 0 = view s (o + j) := by
  rw [readOp_eq s o n hfile hstrict]
  obtain ⟨-, -, h3, h4, -⟩ := readLoop_spec o n n o s (List.replicate n 0) (le_refl n) hps hres
    (le_refl o) (by simp)
  refine ⟨_, rfl, by simpa using h3, ?_⟩
  intro j hj
  have hh := h4 j (by omega) (by omega)
  simpa using hh

theorem writtenAt_none_iff {ps : Nat} (hps : 0 < ps) (off rem i : Nat) :
    writtenAt none ps off rem i ↔ (off ≤ i ∧ i < off + rem) := by
  constructor
  · rintro ⟨c, hc, h1, h2, -⟩
    have := pageChunks_mem_spec hps rem off c hc
    omega
  · rintro ⟨h1, h2⟩
    obtain ⟨c, hc, h3, h4⟩ := pageChunks_cover hps rem off i h1 h2
    exact ⟨c, hc, h3, h4, rfl⟩

/-- C1: on an open store with no bitmask installed and the strict guard
passing, `write(o, d)` succeeds and a subsequent `read(o, d.length)`
succeeds and returns exactly `d`, with no capacity proviso: `lru-cache@11`
passes the stored value — not the key — to `_onEvict`, so a capacity
eviction only drops an LRU key and every page the write touched is still
resident, holding the written bytes, when the read runs. -/
theorem c1_read_your_writes (s : Store) (o : Nat) (d : List Nat)
    (hps : 0 < s.pageSize) (hfile : s.fileExists = true) (hbm : s.bitmask = none)
    (hd0 : d ≠ []) (hstrict : strictViolated s o d.length = false) :
    (writeOp s o d).2 = none ∧
    (readOp (writeOp s o d).1 o d.length).2 = Except.ok d := by
  obtain ⟨w1, w3, w4, w5⟩ := writeLoop_spec o d d.length d.length o s (le_refl _) hps hfile
    (le_refl o) (by omega)
  have score := sameCore_writeLoop o d d.length o d.length s
  obtain ⟨s1, hs1⟩ : ∃ t, writeLoop o d d.length o d.length s = t := ⟨_, rfl⟩
  rw [hs1] at w1 w3 w4 w5 score
  rw [writeOp_eq s o d hstrict, hs1]
  refine ⟨rfl, ?_⟩
  have hpseq : s.pageSize = s1.pageSize := sameCore_pageSize score
  have hps1 : 0 < s1.pageSize := by rw [← hpseq]; exact hps
  have hfile1 : s1.fileExists = true := by rw [← sameCore_fileExists score]; exact hfile
  have hstrict1 : strictViolated { s1 with size := max s1.size (o + d.length) } o d.length
      = false :=
    (strictViolated_eqSL ((sameCore_strict score).symm) o d.length).trans hstrict
  have hwr : ∀ i, o ≤ i → i < o + d.length → writtenAt s.bitmask s.pageSize o d.length i := by
    intro i h1 h2
    rw [hbm]
    exact (writtenAt_none_iff hps o d.length i).mpr ⟨h1, h2⟩
  have hres1 : ∀ c ∈ pageChunks s1.pageSize d.length o d.length, ∃ pg,
      alookup s1.pages (c.1 / s1.pageSize) = some pg ∧
      c.1 % s1.pageSize + c.2 ≤ pg.data.length := by
    rw [← hpseq]
    intro c hc
    have hcs := pageChunks_mem_spec hps d.length o c hc
    obtain ⟨pg, hpg, hlen, -⟩ := w4 (c.1 + c.2 - 1) (hwr _ (by omega) (by omega))
    have hdo := Nat.div_add_mod c.1 s.pageSize
    have hmc : c.1 / s.pageSize * s.pageSize = s.pageSize * (c.1 / s.pageSize) :=
      Nat.mul_comm _ _
    have heq : c.1 + c.2 - 1 =
        c.1 / s.pageSize * s.pageSize + (c.1 % s.pageSize + c.2 - 1) := by omega
    have hjj : c.1 % s.pageSize + c.2 - 1 < s.pageSize := by omega
    have hdm := chunk_div_mod s.pageSize (c.1 / s.pageSize) (c.1 % s.pageSize + c.2 - 1) hps hjj
    have hdiv : (c.1 + c.2 - 1) / s.pageSize = c.1 / s.pageSize := by
      rw [heq]
      exact hdm.1
    have hmod : (c.1 + c.2 - 1) % s.pageSize = c.1 % s.pageSize + c.2 - 1 := by
      rw [heq]
      exact hdm.2
    rw [hdiv] at hpg
    rw [hmod] at hlen
    exact ⟨pg, hpg, by omega⟩
  obtain ⟨buf, hbufeq, hlenb, hval⟩ := readOp_spec { s1 with size := max s1.size (o + d.length) }
    o d.length hps1 hfile1 hstrict1 hres1
  rw [hbufeq]
  refine congrArg Except.ok ?_
  refine List.ext_getElem (by rw [hlenb]) ?_
  intro j hj1 hj2
  rw [← List.getD_eq_getElem buf 0 hj1, ← List.getD_eq_getElem d 0 hj2]
  obtain ⟨pg, hpg, hplen, hpval⟩ := w4 (o + j) (hwr _ (by omega) (by omega))
  rw [hpseq] at hpg hpval
  rw [hval j (by omega),
    show view { s1 with size := max s1.size (o + d.length) } (o + j)
      = pg.data.getD ((o + j) % s1.pageSize) 0 from view_resident hpg,
    hpval, Nat.add_sub_cancel_left]

/-- Witness for C1 at a concrete input: write `[7, 8, 9]` at offset 1 on a
fresh empty store whose capacity of 1 page forces an LRU eviction mid-write
(the write spans pages 0 and 1), then read the bytes back. -/
theorem c1_read_your_writes_witness :
    (writeOp (openStore ⟨[]⟩ 4 1 none true) 1 [7, 8, 9]).2 = none ∧
    (readOp (writeOp (openStore ⟨[]⟩ 4 1 none true) 1 [7, 8, 9]).1 1 3).2 =
      Except.ok [7, 8, 9] :=
  c1_read_your_writes (openStore ⟨[]⟩ 4 1 none true) 1 [7, 8, 9] (by decide) rfl rfl
    (by decide) rfl

/-- C2 (amended with the no-bitmask proviso): for a write with no bitmask
installed that passes the strict guard, every byte `i` outside the written
range `[o, o + d.length)` that lies on a page the write touches reads back
unchanged — in particular backend-resident bytes of a freshly materialised
page outside the written subrange are preserved.  With a bitmask the
property fails: a skipped subrange still grows the size and exposes stale
backend bytes beyond the old size. -/
theorem c2_untouched_bytes_preserved (s : Store) (o : Nat) (d : List Nat)
    (hps : 0 < s.pageSize) (hfile : s.fileExists = true) (hbm : s.bitmask = none)
    (hstrict : strictViolated s o d.length = false)
    (i : Nat) (hout : ¬(o ≤ i ∧ i < o + d.length))
    (htouch : ∃ j, (o ≤ j ∧ j < o + d.length) ∧ j / s.pageSize = i / s.pageSize) :
    view (writeOp s o d).1 i = view s i := by
  obtain ⟨w1, w3, w4, w5⟩ := writeLoop_spec o d d.length d.length o s (le_refl _) hps hfile
    (le_refl o) (by omega)
  have score := sameCore_writeLoop o d d.length o d.length s
  obtain ⟨s1, hs1⟩ : ∃ t, writeLoop o d d.length o d.length s = t := ⟨_, rfl⟩
  rw [hs1] at w1 w3 w4 w5 score
  rw [writeOp_eq s o d hstrict, hs1]
  have hpseq : s.pageSize = s1.pageSize := sameCore_pageSize score
  have h5 : view s1 i = view s i := by
    refine w5 i ?_
    rw [hbm]
    exact fun hw => hout ((writtenAt_none_iff hps o d.length i).mp hw)
  obtain ⟨j, hin, hpi⟩ := htouch
  obtain ⟨pg, hpg, -, -⟩ := w4 j (by
    rw [hbm]
    exact (writtenAt_none_iff hps o d.length j).mpr hin)
  rw [hpi] at hpg
  rw [hpseq] at hpg
  rw [show view { s1 with size := max s1.size (o + d.length) } i
      = pg.data.getD (i % s1.pageSize) 0 from view_resident hpg]
  rw [← h5]
  exact (view_resident hpg).symm

/-- Witness for C2 at a concrete input: write one byte at offset 1 of a
4-byte backend; byte 2 of the touched page 0 reads back unchanged. -/
theorem c2_untouched_bytes_preserved_witness :
    view (writeOp (openStore ⟨[5, 6, 7, 8]⟩ 4 2 none true) 1 [9]).1 2 =
      view (openStore ⟨[5, 6, 7, 8]⟩ 4 2 none true) 2 :=
  c2_untouched_bytes_preserved (openStore ⟨[5, 6, 7, 8]⟩ 4 2 none true) 1 [9] (by decide) rfl
    rfl rfl 2 (by decide) ⟨1, by decide, by decide⟩


theorem view_size_bump {s1 : Store} (n i : Nat) (hb : s1.underlying.data.length ≤ s1.size) :
    view { s1 with size := max s1.size n } i = view s1 i := by
  cases h : alookup s1.pages (i / s1.pageSize) with
  | some pg =>
    rw [show view { s1 with size := max s1.size n } i = pg.data.getD (i % s1.pageSize) 0 from
      view_resident h, view_resident h]
  | none =>
    rw [show view { s1 with size := max s1.size n } i =
        (if s1.fileExists = true ∧ i < max s1.size n then bget s1.underlying i else 0) from
      view_missing h, view_missing h]
    by_cases hf : s1.fileExists = true
    · by_cases hi : i < s1.size
      · rw [if_pos (show s1.fileExists = true ∧ i < max s1.size n from
            ⟨hf, lt_max_of_lt_left hi⟩),
          if_pos (show s1.fileExists = true ∧ i < s1.size from ⟨hf, hi⟩)]
      · rw [if_neg (show ¬(s1.fileExists = true ∧ i < s1.size) from fun h2 => hi h2.2)]
        by_cases hmaxi : i < max s1.size n
        · rw [if_pos (show s1.fileExists = true ∧ i < max s1.size n from ⟨hf, hmaxi⟩)]
          unfold bget
          exact getD_eq_zero_of_le (le_trans hb (le_of_not_lt hi))
        · rw [if_neg (show ¬(s1.fileExists = true ∧ i < max s1.size n) from
            fun h2 => hmaxi h2.2)]
    · rw [if_neg (show ¬(s1.fileExists = true ∧ i < max s1.size n) from fun h2 => hf h2.1),
        if_neg (show ¬(s1.fileExists = true ∧ i < s1.size) from fun h2 => hf h2.1)]

theorem pageChunks_rest_gt {ps : Nat} (hps : 0 < ps) (off rem : Nat) :
    ∀ c ∈ pageChunks ps (rem - min (ps - off % ps) rem) (off + min (ps - off % ps) rem)
      (rem - min (ps - off % ps) rem), off / ps < c.1 / ps := by
  intro c hc
  have hpo : off % ps < ps := Nat.mod_lt off hps
  have hcase : min (ps - off % ps) rem = ps - off % ps ∨
      rem - min (ps - off % ps) rem = 0 := by omega
  rcases hcase with hcl | hcl
  · have hcs := pageChunks_mem_spec hps _ _ c hc
    have hdo := Nat.div_add_mod off ps
    have h2 : off / ps + 1 ≤ c.1 / ps := by
      rw [Nat.le_div_iff_mul_le hps]
      have hmul2 : (off / ps + 1) * ps = ps * (off / ps) + ps := by ring
      omega
    omega
  · rw [hcl] at hc
    simp [pageChunks] at hc

theorem pageChunks_page_unique {ps : Nat} (hps : 0 < ps) :
    ∀ rem off c c', c ∈ pageChunks ps rem off rem → c' ∈ pageChunks ps rem off rem →
      c.1 / ps = c'.1 / ps → c = c' := by
  intro rem
  induction rem using Nat.strong_induction_on with
  | _ rem ih =>
    intro off c c' hc hc' hpp
    rcases Nat.eq_zero_or_pos rem with h0 | h0
    · subst h0
      simp [pageChunks] at hc
    · have hpo : off % ps < ps := Nat.mod_lt off hps
      obtain ⟨len, hlendef⟩ : ∃ l, min (ps - off % ps) rem = l := ⟨_, rfl⟩
      have hchunks : pageChunks ps rem off rem =
          (off, len) :: pageChunks ps (rem - len) (off + len) (rem - len) := by
        rw [pageChunks_unfold hps off rem (by omega), hlendef]
      have hrest := pageChunks_rest_gt hps off rem
      rw [hlendef] at hrest
      rw [hchunks] at hc hc'
      rcases List.mem_cons.mp hc with he | ht
      · rcases List.mem_cons.mp hc' with he' | ht'
        · rw [he, he']
        · exfalso
          have hgt := hrest c' ht'
          rw [he] at hpp
          have hpp' : off / ps = c'.1 / ps := hpp
          omega
      · rcases List.mem_cons.mp hc' with he' | ht'
        · exfalso
          have hgt := hrest c ht
          rw [he'] at hpp
          have hpp' : c.1 / ps = off / ps := hpp
          omega
        · exact ih (rem - len) (by omega) (off + len) c c' ht ht' hpp

theorem chunk_page_of_cover {ps : Nat} (hps : 0 < ps) {c : Nat × Nat} {i : Nat}
    (h1 : c.1 ≤ i) (h2 : i < c.1 + c.2) (h3 : c.1 % ps + c.2 ≤ ps) :
    i / ps = c.1 / ps := by
  have hdo := Nat.div_add_mod c.1 ps
  have hmc : c.1 / ps * ps = ps * (c.1 / ps) := Nat.mul_comm _ _
  have heq : i = c.1 / ps * ps + (c.1 % ps + (i - c.1)) := by omega
  have hj : c.1 % ps + (i - c.1) < ps := by omega
  have hdm := chunk_div_mod ps (c.1 / ps) (c.1 % ps + (i - c.1)) hps hj
  rw [heq]
  exact hdm.1

theorem isBitSet_false_of_bit (bm : List Nat) :
    ∀ k off i, off ≤ i → i < off + k → isBitSet bm i 1 = false →
      isBitSet bm off k = false := by
  intro k
  induction k with
  | zero =>
    intro off i h1 h2 hbit
    omega
  | succ k ih =>
    intro off i h1 h2 hbit
    by_cases hoi : off = i
    · subst hoi
      by_cases hg1 : bm.length ≤ off / 8
      · simp only [isBitSet]
        rw [if_pos hg1]
      · by_cases hg2 : bm.getD (off / 8) 0 >>> (off % 8) % 2 = 0
        · simp only [isBitSet]
          rw [if_neg hg1, if_pos hg2]
        · exfalso
          simp only [isBitSet, if_neg hg1, if_neg hg2] at hbit
          exact Bool.noConfusion hbit
    · by_cases hg1 : bm.length ≤ off / 8
      · simp only [isBitSet]
        rw [if_pos hg1]
      · by_cases hg2 : bm.getD (off / 8) 0 >>> (off % 8) % 2 = 0
        · simp only [isBitSet]
          rw [if_neg hg1, if_pos hg2]
        · simp only [isBitSet]
          rw [if_neg hg1, if_neg hg2]
          exact ih (off + 1) i (by omega) (by omega) hbit

/-- C3 (amended to chunk granularity): with bitmask `B` installed (and the
backend no longer than the overlay size), a byte `i` of `write(o, d)`
covered by the per-page chunk `c`: (1) if bit `i` of `B` is unset the whole
chunk's gate fails; (2) when every bit of the chunk is set, byte `i` is
overwritten with `d[i-o]`; (3) when some bit of the chunk is unset, byte
`i` reads back unchanged — so a byte is unchanged iff its *chunk's* gate
fails, not iff its own bit is 0 as claimed. -/
theorem c3_bitmask_skip_characterisation (s : Store) (o : Nat) (d : List Nat) (B : List Nat)
    (hps : 0 < s.pageSize) (hfile : s.fileExists = true) (hbm : s.bitmask = some B)
    (hstrict : strictViolated s o d.length = false)
    (hback : s.underlying.data.length ≤ s.size)
    (i : Nat) (c : Nat × Nat) (hc : c ∈ pageChunks s.pageSize d.length o d.length)
    (hcov1 : c.1 ≤ i) (hcov2 : i < c.1 + c.2) :
    (isBitSet B i 1 = false → isBitSet B c.1 c.2 = false) ∧
    (isBitSet B c.1 c.2 = true →
      ∃ pg, alookup (writeOp s o d).1.pages (i / s.pageSize) = some pg ∧
        pg.data.getD (i % s.pageSize) 0 = d.getD (i - o) 0) ∧
    (isBitSet B c.1 c.2 = false → view (writeOp s o d).1 i = view s i) := by
  obtain ⟨w1, w3, w4, w5⟩ := writeLoop_spec o d d.length d.length o s (le_refl _) hps hfile
    (le_refl o) (by omega)
  have score := sameCore_writeLoop o d d.length o d.length s
  obtain ⟨s1, hs1⟩ : ∃ t, writeLoop o d d.length o d.length s = t := ⟨_, rfl⟩
  rw [hs1] at w1 w3 w4 w5 score
  rw [writeOp_eq s o d hstrict, hs1]
  have hcs := pageChunks_mem_spec hps d.length o c hc
  refine ⟨fun hbit => isBitSet_false_of_bit B c.2 c.1 i hcov1 hcov2 hbit, ?_, ?_⟩
  · intro hpassB
    have hw : writtenAt s.bitmask s.pageSize o d.length i := by
      rw [hbm]
      exact ⟨c, hc, hcov1, hcov2, by simp [chunkPasses, hpassB]⟩
    obtain ⟨pg, hpg, hplen, hpval⟩ := w4 i hw
    exact ⟨pg, hpg, hpval⟩
  · intro hskipB
    have hnw : ¬ writtenAt s.bitmask s.pageSize o d.length i := by
      rw [hbm]
      rintro ⟨c'', hc'', hcc1, hcc2, hpass⟩
      have hcs'' := pageChunks_mem_spec hps d.length o c'' hc''
      have hp1 : i / s.pageSize = c''.1 / s.pageSize :=
        chunk_page_of_cover hps hcc1 hcc2 (by omega)
      have hp2 : i / s.pageSize = c.1 / s.pageSize :=
        chunk_page_of_cover hps hcov1 hcov2 (by omega)
      have hcc : c'' = c := pageChunks_page_unique hps d.length o c'' c hc'' hc
        (hp1.symm.trans hp2)
      rw [hcc] at hpass
      simp only [chunkPasses] at hpass
      rw [hskipB] at hpass
      exact Bool.noConfusion hpass
    have h5 := w5 i hnw
    have hb1 : s1.underlying.data.length ≤ s1.size := by
      rw [w1, ← sameCore_size score]
      exact hback
    rw [view_size_bump (o + d.length) i hb1, h5]

/-- Witness for C3 at a concrete input: bitmask byte `2` has bit 0 unset,
so a 2-byte write at 0 skips its page chunk and byte 0 is unchanged. -/
theorem c3_bitmask_skip_characterisation_witness :
    view (writeOp (setBitmaskOp (openStore ⟨[]⟩ 4 2 none true) [2]) 0 [7, 9]).1 0 =
      view (setBitmaskOp (openStore ⟨[]⟩ 4 2 none true) [2]) 0 :=
  (c3_bitmask_skip_characterisation (setBitmaskOp (openStore ⟨[]⟩ 4 2 none true) [2]) 0
    [7, 9] [2] (by decide) rfl rfl rfl (by decide) 0 (0, 2) (by decide)
    (by decide) (by decide)).2.2 (by decide)

/-- C4 (amended): a per-page subrange whose bitmask gate fails is skipped
without touching that page's map entry at all (buffer, dirty flag, and
residency are untouched) — but, contrary to the claim's final clause,
`_write` still sets `size = max(size, o + d.length)` even for a fully
skipped write. -/
theorem c4_skip_leaves_page_untouched (s : Store) (o : Nat) (d : List Nat)
    (hps : 0 < s.pageSize) (hfile : s.fileExists = true)
    (hstrict : strictViolated s o d.length = false)
    (c : Nat × Nat) (hc : c ∈ pageChunks s.pageSize d.length o d.length)
    (hskip : chunkPasses s.bitmask c.1 c.2 = false) :
    alookup (writeOp s o d).1.pages (c.1 / s.pageSize) = alookup s.pages (c.1 / s.pageSize) ∧
    (writeOp s o d).1.size = max s.size (o + d.length) := by
  obtain ⟨w1, w3, w4, w5⟩ := writeLoop_spec o d d.length d.length o s (le_refl _) hps hfile
    (le_refl o) (by omega)
  have score := sameCore_writeLoop o d d.length o d.length s
  obtain ⟨s1, hs1⟩ : ∃ t, writeLoop o d d.length o d.length s = t := ⟨_, rfl⟩
  rw [hs1] at w3 score
  rw [writeOp_eq s o d hstrict, hs1]
  constructor
  · refine w3 (c.1 / s.pageSize) ?_
    intro c' hc' hpass hpage
    have hcc : c' = c := pageChunks_page_unique hps d.length o c' c hc' hc hpage
    rw [hcc] at hpass
    rw [hskip] at hpass
    exact Bool.noConfusion hpass
  · show max s1.size (o + d.length) = max s.size (o + d.length)
    rw [sameCore_size score]

/-- Witness for C4 at a concrete input: an all-zero bitmask byte skips the
whole 2-byte write at 0; page 0 stays absent, yet the size becomes 2. -/
theorem c4_skip_leaves_page_untouched_witness :
    alookup (writeOp (setBitmaskOp (openStore ⟨[]⟩ 4 2 none true) [0]) 0 [1, 2]).1.pages 0 =
      alookup (setBitmaskOp (openStore ⟨[]⟩ 4 2 none true) [0]).pages 0 ∧
    (writeOp (setBitmaskOp (openStore ⟨[]⟩ 4 2 none true) [0]) 0 [1, 2]).1.size = 2 :=
  c4_skip_leaves_page_untouched (setBitmaskOp (openStore ⟨[]⟩ 4 2 none true) [0]) 0 [1, 2]
    (by decide) rfl rfl (0, 2) (by decide) (by decide)

/-! ### Keys of the page map and the pin set under a shrinking truncate -/

theorem keys_aset (l : List (Nat × Page)) (i : Nat) (pg : Page) :
    (aset l i pg).map Prod.fst =
      if i ∈ l.map Prod.fst then l.map Prod.fst else l.map Prod.fst ++ [i] := by
  induction l with
  | nil => simp [aset]
  | cons kv rest ih =>
    obtain ⟨k, v⟩ := kv
    by_cases hk : k = i
    · subst hk
      simp [aset]
    · simp only [aset, if_neg hk, List.map_cons, ih]
      by_cases hmem : i ∈ rest.map Prod.fst
      · rw [if_pos hmem, if_pos (List.mem_cons_of_mem _ hmem)]
      · have hmem2 : i ∉ k :: rest.map Prod.fst := by
          simp only [List.mem_cons]
          rintro (h | h)
          · exact hk h.symm
          · exact hmem h
        rw [if_neg hmem, if_neg hmem2]
        simp

theorem keys_aremove (l : List (Nat × Page)) (i : Nat) :
    (aremove l i).map Prod.fst = (l.map Prod.fst).erase i := by
  induction l with
  | nil => simp [aremove]
  | cons kv rest ih =>
    obtain ⟨k, v⟩ := kv
    by_cases hk : k = i
    · subst hk
      simp [aremove, List.erase_cons]
    · simp [aremove, List.erase_cons, hk, ih]

theorem alookup_none_iff (l : List (Nat × Page)) (i : Nat) :
    alookup l i = none ↔ i ∉ l.map Prod.fst := by
  induction l with
  | nil => simp [alookup]
  | cons kv rest ih =>
    obtain ⟨k, v⟩ := kv
    by_cases hk : k = i
    · subst hk
      simp [alookup]
    · rw [show alookup ((k, v) :: rest) i = alookup rest i from by simp [alookup, hk], ih]
      simp only [List.map_cons, List.mem_cons, not_or]
      constructor
      · intro h
        exact ⟨fun he => hk he.symm, h⟩
      · intro h
        exact h.2

theorem alookup_some_mem {l : List (Nat × Page)} {i : Nat} {pg : Page}
    (h : alookup l i = some pg) : i ∈ l.map Prod.fst := by
  by_contra hn
  rw [← alookup_none_iff] at hn
  rw [h] at hn
  exact Option.noConfusion hn

theorem keys_clearMod (l : List (Nat × Page)) (pi : Nat) :
    (clearMod l pi).map Prod.fst = l.map Prod.fst := by
  cases h : alookup l pi with
  | none =>
    unfold clearMod
    rw [h]
  | some pg =>
    unfold clearMod
    rw [h]
    show (if pg.modified then aset l pi ⟨pg.data, false⟩ else l).map Prod.fst = l.map Prod.fst
    by_cases hm : pg.modified
    · rw [if_pos hm, keys_aset, if_pos (alookup_some_mem h)]
    · rw [if_neg hm]

theorem flushPageStep_frame (offset e ps pi : Nat) (s : Store) :
    keysOf (flushPageStep offset e ps pi s) = keysOf s ∧
    (flushPageStep offset e ps pi s).lru = s.lru ∧
    (flushPageStep offset e ps pi s).pinnedPages = s.pinnedPages ∧
    (flushPageStep offset e ps pi s).maxPages = s.maxPages :=
  ⟨keys_clearMod s.pages pi, rfl, rfl, rfl⟩

theorem flushPagesLoop_frame (offset e ps : Nat) :
    ∀ (l : List Nat) (s : Store),
      keysOf (flushPagesLoop offset e ps l s) = keysOf s ∧
      (flushPagesLoop offset e ps l s).lru = s.lru ∧
      (flushPagesLoop offset e ps l s).pinnedPages = s.pinnedPages ∧
      (flushPagesLoop offset e ps l s).maxPages = s.maxPages := by
  intro l
  induction l with
  | nil => intro s; exact ⟨rfl, rfl, rfl, rfl⟩
  | cons pi rest ih =>
    intro s
    obtain ⟨h1, h2, h3, h4⟩ := ih (flushPageStep offset e ps pi s)
    obtain ⟨g1, g2, g3, g4⟩ := flushPageStep_frame offset e ps pi s
    simp only [flushPagesLoop]
    exact ⟨h1.trans g1, h2.trans g2, h3.trans g3, h4.trans g4⟩

theorem flushOp_frame (s : Store) (o n : Nat) :
    keysOf (flushOp s o n) = keysOf s ∧ (flushOp s o n).lru = s.lru ∧
    (flushOp s o n).pinnedPages = s.pinnedPages ∧
    (flushOp s o n).maxPages = s.maxPages := by
  unfold flushOp performFlush
  dsimp only
  obtain ⟨h1, h2, h3, h4⟩ := flushPagesLoop_frame o (o + min n s.size) s.pageSize
    (performFlushPages s o (min n s.size)) s
  split
  · exact ⟨h1, h2, h3, h4⟩
  · exact ⟨h1, h2, h3, h4⟩

theorem removePagesList_pinned : ∀ (l : List Nat) (s : Store),
    (removePagesList s l).pinnedPages =
      l.foldl (fun p i => p.erase i) s.pinnedPages := by
  intro l
  induction l with
  | nil =>
    intro s
    rfl
  | cons i rest ih =>
    intro s
    unfold removePagesList
    rw [List.foldl_cons, List.foldl_cons]
    have h1 := ih { s with
      pages := aremove s.pages i, lru := s.lru.erase i, pinnedPages := s.pinnedPages.erase i }
    unfold removePagesList at h1
    exact h1

theorem removePagesList_keys : ∀ (l : List Nat) (s : Store),
    keysOf (removePagesList s l) = l.foldl (fun ks i => ks.erase i) (keysOf s) := by
  intro l
  induction l with
  | nil =>
    intro s
    rfl
  | cons i rest ih =>
    intro s
    unfold removePagesList
    rw [List.foldl_cons, List.foldl_cons]
    have h1 := ih { s with
      pages := aremove s.pages i, lru := s.lru.erase i, pinnedPages := s.pinnedPages.erase i }
    unfold removePagesList at h1
    rw [h1, show keysOf { s with
      pages := aremove s.pages i, lru := s.lru.erase i, pinnedPages := s.pinnedPages.erase i } = (keysOf s).erase i from keys_aremove s.pages i]

theorem mem_foldl_erase : ∀ (l p : List Nat), p.Nodup → ∀ k,
    (k ∈ l.foldl (fun acc i => acc.erase i) p ↔ (k ∈ p ∧ k ∉ l)) := by
  intro l
  induction l with
  | nil =>
    intro p hp k
    simp
  | cons i rest ih =>
    intro p hp k
    rw [List.foldl_cons, ih (p.erase i) (hp.erase i) k, hp.mem_erase_iff]
    constructor
    · rintro ⟨⟨h1, h2⟩, h3⟩
      refine ⟨h2, ?_⟩
      intro hc
      rcases List.mem_cons.mp hc with rfl | hc2
      · exact h1 rfl
      · exact h3 hc2
    · rintro ⟨h1, h2⟩
      exact ⟨⟨fun he => h2 (by rw [he]; exact List.mem_cons_self _ _), h1⟩,
        fun hc => h2 (List.mem_cons_of_mem _ hc)⟩

theorem nodup_foldl_erase : ∀ (l p : List Nat), p.Nodup →
    (l.foldl (fun acc i => acc.erase i) p).Nodup := by
  intro l
  induction l with
  | nil =>
    intro p hp
    exact hp
  | cons i rest ih =>
    intro p hp
    rw [List.foldl_cons]
    exact ih (p.erase i) (hp.erase i)

/-- C10 (amended to a characterisation): after a shrinking `truncate(L)`,
the pin set loses exactly the *resident* page indices beyond the boundary
`L / pageSize`, plus the boundary index itself when it is resident and `L`
is a page multiple.  A pinned page index that is not resident survives the
truncate, contrary to the claim's unconditional removal of all indices
beyond the boundary. -/
theorem c10_truncate_pin_characterisation (s : Store) (L : Nat) (hL : L ≤ s.size)
    (hnp : s.pinnedPages.Nodup) (hnk : (keysOf s).Nodup) (k : Nat) :
    k ∈ (truncateOp s L).pinnedPages ↔
      (k ∈ s.pinnedPages ∧ ¬(k ∈ keysOf s ∧ L / s.pageSize < k) ∧
        ¬(k = L / s.pageSize ∧ k ∈ keysOf s ∧ L % s.pageSize = 0)) := by
  unfold truncateOp
  rw [if_neg (by omega)]
  dsimp only
  obtain ⟨s1, hs1⟩ : ∃ t, removePagesList { s with size := L }
      ((keysOf { s with size := L }).filter fun i => L / s.pageSize < i) = t := ⟨_, rfl⟩
  rw [hs1]
  have hpins0 : s1.pinnedPages =
      ((keysOf { s with size := L }).filter fun i => L / s.pageSize < i).foldl
        (fun p i => p.erase i) ({ s with size := L } : Store).pinnedPages := by
    rw [← hs1]
    exact removePagesList_pinned _ _
  have hpins : s1.pinnedPages =
      ((keysOf s).filter fun i => L / s.pageSize < i).foldl
        (fun p i => p.erase i) s.pinnedPages := hpins0
  have hkeys0 : keysOf s1 =
      ((keysOf { s with size := L }).filter fun i => L / s.pageSize < i).foldl
        (fun ks i => ks.erase i) (keysOf { s with size := L }) := by
    rw [← hs1]
    exact removePagesList_keys _ _
  have hkeys1 : keysOf s1 =
      ((keysOf s).filter fun i => L / s.pageSize < i).foldl
        (fun ks i => ks.erase i) (keysOf s) := hkeys0
  have hmempins : ∀ j, j ∈ s1.pinnedPages ↔
      (j ∈ s.pinnedPages ∧ ¬(j ∈ keysOf s ∧ L / s.pageSize < j)) := by
    intro j
    rw [hpins, mem_foldl_erase _ _ hnp j]
    simp only [List.mem_filter, decide_eq_true_eq]
  have hmemkeys1 : ∀ j, j ∈ keysOf s1 ↔
      (j ∈ keysOf s ∧ ¬(j ∈ keysOf s ∧ L / s.pageSize < j)) := by
    intro j
    rw [hkeys1, mem_foldl_erase _ _ hnk j]
    simp only [List.mem_filter, decide_eq_true_eq]
  have hnodup1 : s1.pinnedPages.Nodup := by
    rw [hpins]
    exact nodup_foldl_erase _ _ hnp
  cases hb : alookup s1.pages (L / s.pageSize) with
  | none =>
    show k ∈ s1.pinnedPages ↔ _
    rw [hmempins k]
    constructor
    · rintro ⟨h1, h2⟩
      refine ⟨h1, h2, ?_⟩
      rintro ⟨rfl, hk2, -⟩
      have hbk : L / s.pageSize ∈ keysOf s1 :=
        (hmemkeys1 _).mpr ⟨hk2, fun hc => absurd hc.2 (lt_irrefl _)⟩
      exact (alookup_none_iff s1.pages (L / s.pageSize)).mp hb hbk
    · rintro ⟨h1, h2, -⟩
      exact ⟨h1, h2⟩
  | some lastPg =>
    show k ∈ (if L % s.pageSize = 0 then { s1 with
        pages := aremove s1.pages (L / s.pageSize), lru := s1.lru.erase (L / s.pageSize), pinnedPages := s1.pinnedPages.erase (L / s.pageSize) }
      else { s1 with
        pages := aset s1.pages (L / s.pageSize) ⟨lastPg.data.take (L % s.pageSize), true⟩ }).pinnedPages ↔
      (k ∈ s.pinnedPages ∧ ¬(k ∈ keysOf s ∧ L / s.pageSize < k) ∧
        ¬(k = L / s.pageSize ∧ k ∈ keysOf s ∧ L % s.pageSize = 0))
    by_cases hmod : L % s.pageSize = 0
    · rw [if_pos hmod]
      show k ∈ s1.pinnedPages.erase (L / s.pageSize) ↔ _
      rw [hnodup1.mem_erase_iff, hmempins k]
      constructor
      · rintro ⟨hne, h1, h2⟩
        exact ⟨h1, h2, fun hc => hne hc.1⟩
      · rintro ⟨h1, h2, h3⟩
        refine ⟨?_, h1, h2⟩
        intro he
        refine h3 ⟨he, ?_, hmod⟩
        have hbk1 : L / s.pageSize ∈ keysOf s1 := alookup_some_mem hb
        rw [he]
        exact ((hmemkeys1 _).mp hbk1).1
    · rw [if_neg hmod]
      show k ∈ s1.pinnedPages ↔ _
      rw [hmempins k]
      constructor
      · rintro ⟨h1, h2⟩
        exact ⟨h1, h2, fun hc => hmod hc.2.2⟩
      · rintro ⟨h1, h2, -⟩
        exact ⟨h1, h2⟩

/-- Witness for C10 at a concrete input: page 1 is resident and pinned, the
store is truncated to 4 bytes (a page multiple, boundary page 1): index 1
is removed from the pin set, and both sides of the characterisation are
false at k = 1. -/
theorem c10_truncate_pin_characterisation_witness :
    (1 ∈ (truncateOp (pinOp (writeOp (openStore ⟨[1, 2, 3, 4, 5, 6, 7, 8]⟩ 4 10 none true)
        4 [9]).1 0 8) 4).pinnedPages ↔
      (1 ∈ (pinOp (writeOp (openStore ⟨[1, 2, 3, 4, 5, 6, 7, 8]⟩ 4 10 none true)
          4 [9]).1 0 8).pinnedPages ∧
        ¬(1 ∈ keysOf (pinOp (writeOp (openStore ⟨[1, 2, 3, 4, 5, 6, 7, 8]⟩ 4 10 none true)
          4 [9]).1 0 8) ∧ 1 < 1) ∧
        ¬(1 = 1 ∧ 1 ∈ keysOf (pinOp (writeOp (openStore ⟨[1, 2, 3, 4, 5, 6, 7, 8]⟩ 4 10
          none true) 4 [9]).1 0 8) ∧ 0 = 0))) :=
  c10_truncate_pin_characterisation
    (pinOp (writeOp (openStore ⟨[1, 2, 3, 4, 5, 6, 7, 8]⟩ 4 10 none true) 4 [9]).1 0 8) 4
    (by decide) (by decide) (by decide) 1

/-! ### C8 — the constructor mutates a nested layer's strict limit -/

/-- C8: constructing an outer layer (here with `strictSizeEnforcement`
unset) over an inner layered store whose limit is `10` overwrites the
inner store's `_strictSizeLimit` with the outer option (source lines
26–28), so the inner layer's configuration does not stay local. -/
theorem c8_ctor_overwrites_inner_limit :
    (openStore ⟨[]⟩ 4 100 (some 10) true).strictSizeLimit = some 10 ∧
    (ctorAdjustInner none (openStore ⟨[]⟩ 4 100 (some 10) true)).strictSizeLimit = none := by
  exact ⟨rfl, rfl⟩

/-! ### C5 — the strict size limit rejects out-of-range I/O without side
effect -/

/-- C5: with `strictSizeEnforcement = L` on an open store, a read of
`[o, o + n)` and a write of `d` at `o` whose ranges extend past `L` both
fail with a message containing `exceeds strict size enforcement`, and both
leave the store (pages, size and all other fields) exactly unchanged. -/
theorem c5_strict_limit_rejects (s : Store) (L o n : Nat) (d : List Nat)
    (hL : s.strictSizeLimit = some L) (hfile : s.fileExists = true)
    (hrn : L < o + n) (hwd : L < o + d.length) :
    readOp s o n = (s, .error "Read exceeds strict size enforcement") ∧
    containsLimitMsg "Read exceeds strict size enforcement" ∧
    writeOp s o d = (s, some "Write exceeds strict size enforcement") ∧
    containsLimitMsg "Write exceeds strict size enforcement" := by
  refine ⟨?_, ⟨"Read ", "", rfl⟩, ?_, ⟨"Write ", "", rfl⟩⟩
  · unfold readOp strictViolated
    rw [hL, hfile]
    simp [hrn]
  · unfold writeOp strictViolated
    rw [hL]
    simp [hwd]

/-- C5 witness: a store with limit 10 rejects `read(8, 3)` and
`write(10, [1])`. -/
theorem c5_strict_limit_rejects_witness :
    ((openStore ⟨[]⟩ 4 100 (some 10) true).strictSizeLimit = some 10 ∧
      (openStore ⟨[]⟩ 4 100 (some 10) true).fileExists = true ∧
      10 < 8 + 3 ∧ 10 < 10 + [1].length) ∧
    readOp (openStore ⟨[]⟩ 4 100 (some 10) true) 8 3 =
      (openStore ⟨[]⟩ 4 100 (some 10) true, .error "Read exceeds strict size enforcement") ∧
    writeOp (openStore ⟨[]⟩ 4 100 (some 10) true) 10 [1] =
      (openStore ⟨[]⟩ 4 100 (some 10) true, some "Write exceeds strict size enforcement") := by
  have h := c5_strict_limit_rejects (openStore ⟨[]⟩ 4 100 (some 10) true) 10 8 3 [1, 2, 3]
    rfl rfl (by decide) (by decide)
  have h2 := c5_strict_limit_rejects (openStore ⟨[]⟩ 4 100 (some 10) true) 10 10 3 [1]
    rfl rfl (by decide) (by decide)
  exact ⟨⟨rfl, rfl, by decide, by decide⟩, h.1, h2.2.2.1⟩

/-! ### C6 — a trailing delete truncates the overlay size to the offset -/

/-- C6: for `del(o, s)` with `o + s ≥ size` (including the infinite size
`none`), the delete loop leaves the size untouched, `end` equals the file
size, and the final branch sets `size = o`. -/
theorem c6_del_trailing_sets_size (s : Store) (o : Nat) (sz : Option Nat)
    (h : ∀ n, sz = some n → s.size ≤ o + n) :
    (delOp s o sz).size = o := by
  unfold delOp
  have key : ∀ e : Nat, e = s.size →
      (if e = (delLoop (e - o) o (e - o) s).size
        then { delLoop (e - o) o (e - o) s with size := o }
        else delLoop (e - o) o (e - o) s).size = o := by
    intro e he
    have hsz : e = (delLoop (e - o) o (e - o) s).size := by
      rw [he]
      exact sameCore_size (sameCore_delLoop _ _ _ s)
    rw [if_pos hsz]
  cases sz with
  | none => exact key s.size rfl
  | some n =>
    have hn := h n rfl
    dsimp only
    refine key _ ?_
    split <;> omega

/-- C6 witness: a five-byte store, `del(2, 99)` (which reaches past the
end) sets the size to 2. -/
theorem c6_del_trailing_sets_size_witness :
    (∀ n, (some 99 : Option Nat) = some n →
      ((writeOp (openStore ⟨[]⟩ 4 100 none true) 0 [1, 2, 3, 4, 5]).1).size ≤ 2 + n) ∧
    (delOp (writeOp (openStore ⟨[]⟩ 4 100 none true) 0 [1, 2, 3, 4, 5]).1 2 (some 99)).size = 2 := by
  have harg : ∀ n, (some 99 : Option Nat) = some n →
      ((writeOp (openStore ⟨[]⟩ 4 100 none true) 0 [1, 2, 3, 4, 5]).1).size ≤ 2 + n := by
    intro n hn
    cases hn
    decide
  exact ⟨harg, c6_del_trailing_sets_size _ 2 (some 99) harg⟩

/-! ### C2 — a bitmask-skipped write exposes stale backend bytes -/

/-- C2 counterexample (bitmask skip, no eviction involved): after
`del(2, ∞)` and an explicit unflushed `evict`, the store has `size = 2`,
no resident pages, and the stale backend `[5, 6, 7, 8]`; with the all-zero
bitmask `[0]`, `write(3, [9])` skips its only subrange yet still grows the
size to 4, so byte 2 — on the page the write ranges over, outside
`[3, 4)` — read 0 before the write and reads the stale backend byte 7
afterwards. -/
theorem c2_counterexample :
    (writeOp (setBitmaskOp
        (evictOp (delOp (openStore ⟨[5, 6, 7, 8]⟩ 4 100 none true) 2 none) 1 false) [0])
        3 [9]).2 = none ∧
    (readOp (setBitmaskOp
        (evictOp (delOp (openStore ⟨[5, 6, 7, 8]⟩ 4 100 none true) 2 none) 1 false) [0])
        2 1).2 = Except.ok [0] ∧
    (readOp (writeOp (setBitmaskOp
        (evictOp (delOp (openStore ⟨[5, 6, 7, 8]⟩ 4 100 none true) 2 none) 1 false) [0])
        3 [9]).1 2 1).2 = Except.ok [7] ∧
    (2 : Nat) / 4 = 3 / 4 ∧ (2 < 3 ∨ 3 + 1 ≤ 2) ∧ (7 : Nat) ≠ 0 := by
  exact ⟨rfl, rfl, rfl, by decide, by decide, by decide⟩

/-! ### C3 — the bitmask skips whole chunks, not single bytes -/

/-- C3 counterexample: with bitmask `[1]` (bit 0 set, bit 1 unset) and a
one-chunk `write(0, [9, 9])`, the chunk is skipped because bit 1 is unset,
so byte 0 is left unchanged (it reads 0 before and after, and 9 would have
been written) even though bit 0 of the mask is 1 — refuting the
"unchanged iff bit is 0" equivalence. -/
theorem c3_counterexample :
    (writeOp (setBitmaskOp (openStore ⟨[]⟩ 4 100 none true) [1]) 0 [9, 9]).2 = none ∧
    isBitSet [1] 0 1 = true ∧
    (readOp (setBitmaskOp (openStore ⟨[]⟩ 4 100 none true) [1]) 0 1).2 = Except.ok [0] ∧
    (readOp (writeOp (setBitmaskOp (openStore ⟨[]⟩ 4 100 none true) [1]) 0 [9, 9]).1 0 1).2 =
      Except.ok [0] ∧
    (9 : Nat) ≠ 0 := by
  exact ⟨rfl, rfl, rfl, rfl, by decide⟩

/-! ### C4 — a fully skipped write still grows the size -/

/-- C4 counterexample: with bitmask `[0]` (all bits unset) on an empty
store, `write(0, [9])` skips its only subrange (no page is created or
dirtied), yet the final `this._size = max(this._size, offset +
data.length)` of `_write` still grows the size from 0 to 1. -/
theorem c4_counterexample :
    (writeOp (setBitmaskOp (openStore ⟨[]⟩ 4 100 none true) [0]) 0 [9]).2 = none ∧
    isBitSet [0] 0 1 = false ∧
    (writeOp (setBitmaskOp (openStore ⟨[]⟩ 4 100 none true) [0]) 0 [9]).1.pages = [] ∧
    (setBitmaskOp (openStore ⟨[]⟩ 4 100 none true) [0]).size = 0 ∧
    (writeOp (setBitmaskOp (openStore ⟨[]⟩ 4 100 none true) [0]) 0 [9]).1.size = 1 := by
  exact ⟨rfl, rfl, rfl, rfl, rfl⟩

/-! ### C9 — capacity evictions leave pages resident beyond `maxPages` -/

/-- C9: the resident-page bound fails without any pin.  `lru-cache@11`
passes the stored value `true` to `_onEvict`'s `pageIndex` parameter, so
every capacity eviction no-ops on the page map: a 5-byte write with page
size 4 on a capacity-1 store drops page 0's key from the LRU but leaves
both pages resident, exceeding `maxPages = 1`. -/
theorem c9_maxpages_exceeded :
    (openStore ⟨[]⟩ 4 1 none true).maxPages = 1 ∧
    (writeOp (openStore ⟨[]⟩ 4 1 none true) 0 [1, 2, 3, 4, 5]).1.pages.length = 2 ∧
    (writeOp (openStore ⟨[]⟩ 4 1 none true) 0 [1, 2, 3, 4, 5]).1.lru.length = 1 ∧
    ¬ (2 ≤ 1) := by
  exact ⟨rfl, rfl, rfl, by decide⟩

/-! ### C10 — pins of non-resident pages survive a shrinking truncate -/

/-- C10 counterexample: pin the (never loaded) page 2, then `truncate(0)`
with `0 ≤ size`: the shrink loop only unpins indices present in the page
map, so index `2 > ⌊0 / pageSize⌋ = 0` remains pinned. -/
theorem c10_counterexample :
    (pinOp (openStore ⟨[]⟩ 2 100 none true) 4 2).pinnedPages = [2] ∧
    0 ≤ (pinOp (openStore ⟨[]⟩ 2 100 none true) 4 2).size ∧
    (truncateOp (pinOp (openStore ⟨[]⟩ 2 100 none true) 4 2) 0).pinnedPages = [2] ∧
    (0 : Nat) / 2 < 2 := by
  exact ⟨rfl, by decide, rfl, by decide⟩

end RALS
